import Mathlib

set_option maxHeartbeats 1000000

/-!
Shallow embedding of the mimir membership-inference attack core:
the attack base class (src/mimir/attacks/all_attacks.py), the
perturbation-based strategy (src/mimir/attacks/perturbation.py) and the
scoring pipeline (src/notebooks/new_mi_experiment.py).

Scores and log-likelihoods are modelled as rationals (exact arithmetic in
place of Python floats); documents are modelled by a small universe of
Python-like values (strings and lists); raised Python exceptions are
modelled by `Except String`.
-/

namespace Mimir

/-- Python-like document values: the pipeline handles records that are either
raw strings or lists of substrings, depending on configuration. -/
inductive Py where
  | str (s : String)
  | list (xs : List Py)

/-- Python slicing `x[:n]` on a document value: prefix of a list, or prefix of
a string's characters (which is again a string). -/
def Py.slice : Py → Nat → Py
  | .str s, n => .str ⟨s.data.take n⟩
  | .list xs, n => .list (xs.take n)

/-- Python iteration over a value: the elements of a list, or the
one-character strings of a string. -/
def Py.elems : Py → List Py
  | .str s => s.data.map (fun c => .str ⟨[c]⟩)
  | .list xs => xs

/-- Scores / log-likelihood values (Python floats, modelled exactly). -/
abbrev Score := Rat

/-- A per-token probability vector, as returned by `get_probabilities`. -/
abbrev Probs := List Score

/-- A language model wrapper (mimir.models.Model), abstracted at the boundary
described in spec section 6: `get_probabilities(text[, tokens])`,
`get_ll(text[, tokens], probs)`, a tokenizer `decode`, and a load/unload
lifecycle.  `id` tags the model so that call traces can name the model that
was invoked. -/
structure Model where
  id : Nat
  loaded : Bool
  get_probabilities : Py → Option Py → Probs
  get_ll : Py → Option Py → Option Probs → Score
  decode : Py → Py

def Model.load (m : Model) : Model := { m with loaded := true }

def Model.unload (m : Model) : Model := { m with loaded := false }

/-- `mimir.config.NeighborhoodConfig`, restricted to the fields the shown
core reads. -/
structure NeighborhoodConfig where
  n_perturbation_list : List Nat
  load_from_cache : Bool
  dump_cache : Bool
  original_tokenization_swap : Bool

/-- `mimir.config.ExperimentConfig`, restricted to the fields the shown core
reads. -/
structure ExperimentConfig where
  pretokenized : Bool
  full_doc : Bool
  max_substrs : Nat
  blackbox_attacks : List String
  neighborhood_config : Option NeighborhoodConfig
  random_seed : Nat

/-- The attack-identifier enum (`AllAttacks` in src/mimir/attacks/all_attacks.py;
imported as `BlackBoxAttacks` by the experiment script). -/
inductive AllAttacks where
  | LOSS
  | REFERENCE_BASED
  | PERTURBATION_BASED
  | ZLIB
  | MIN_K
  | MIN_K_PLUS_PLUS
  | NEIGHBOR
  | GRADNORM
  | RECALL
  | DC_PDD
deriving DecidableEq

/-- The string value of each enum member. -/
def AllAttacks.value : AllAttacks → String
  | .LOSS => "loss"
  | .REFERENCE_BASED => "ref"
  | .PERTURBATION_BASED => "perturb"
  | .ZLIB => "zlib"
  | .MIN_K => "min_k"
  | .MIN_K_PLUS_PLUS => "min_k++"
  | .NEIGHBOR => "ne"
  | .GRADNORM => "gradnorm"
  | .RECALL => "recall"
  | .DC_PDD => "dc_pdd"

/-- Every member of the enum, in declaration order. -/
def AllAttacks.all : List AllAttacks :=
  [.LOSS, .REFERENCE_BASED, .PERTURBATION_BASED, .ZLIB, .MIN_K,
   .MIN_K_PLUS_PLUS, .NEIGHBOR, .GRADNORM, .RECALL, .DC_PDD]

/-- `[a.value for a in BlackBoxAttacks]` (new_mi_experiment.py line 47). -/
def implemented_blackbox_attacks : List String :=
  AllAttacks.all.map AllAttacks.value

/-- The keyword arguments threaded through `Attack.attack` into `_attack`. -/
structure Kwargs where
  detokenized_sample : Option Py
  loss : Option Score
  batch_size : Option Nat
  substr_neighbors : Option (List Py)

/-- The state of an `Attack` instance (src/mimir/attacks/all_attacks.py,
class `Attack`): the shared config, the target model reference, the optional
owned reference model / perturbation models, and the lifecycle flag. -/
structure AttackState where
  config : ExperimentConfig
  target_model : Model
  ref_model : Option Model
  perturb_models : Option (List Model)
  is_loaded : Bool
  is_blackbox : Bool

/-- `Attack.__init__`. -/
def Attack.init (config : ExperimentConfig) (target_model : Model)
    (ref_model : Option Model) (perturb_models : Option (List Model))
    (is_blackbox : Bool) : AttackState :=
  { config := config, target_model := target_model, ref_model := ref_model,
    perturb_models := perturb_models, is_loaded := false,
    is_blackbox := is_blackbox }

/-- `Attack.load` (all_attacks.py lines 36-47): loads the owned reference
model if any, then the owned perturbation models if any; `is_loaded` is set
only inside those two branches. -/
def Attack.load (a : AttackState) : AttackState :=
  let a1 :=
    match a.ref_model with
    | some m => { a with ref_model := some m.load, is_loaded := true }
    | none => a
  match a1.perturb_models with
  | some ms => { a1 with perturb_models := some (ms.map Model.load), is_loaded := true }
  | none => a1

/-- `Attack.unload` (all_attacks.py lines 49-57). -/
def Attack.unload (a : AttackState) : AttackState :=
  let a1 :=
    match a.ref_model with
    | some m => { a with ref_model := some m.unload, is_loaded := false }
    | none => a
  match a1.perturb_models with
  | some ms => { a1 with perturb_models := some (ms.map Model.unload), is_loaded := false }
  | none => a1

/-- The shape of a concrete strategy's `_attack(document, probs, tokens, **kwargs)`
scoring function.  The base class raises NotImplementedError; concrete
strategies substitute their own function (possibly one that raises, hence
`Except`). -/
abbrev ScoreFn := Py → Option Py → Option Probs → Kwargs → Except String Score

/-- `Attack.attack` (all_attacks.py lines 65-86), the sole scoring entrypoint:
loads lazily on first call, enforces the pretokenized/detokenized_sample
contract, then dispatches to `_attack` with either the raw document or the
detokenized text plus original tokens.  Returns the mutated state alongside
the outcome (a raised ValueError leaves the mutated state behind, as in
Python). -/
def Attack.attack (score : ScoreFn) (a : AttackState) (document : Py)
    (probs : Option Probs) (kw : Kwargs) : AttackState × Except String Score :=
  let a := if a.is_loaded then a else { Attack.load a with is_loaded := true }
  match kw.detokenized_sample, a.config.pretokenized with
  | none, true => (a, .error "detokenized_sample must be provided")
  | some d, true => (a, score d (some document) probs kw)
  | _, false => (a, score document none probs kw)

/-- `PerturbationAttack.__init__` (src/mimir/attacks/perturbation.py lines
13-18): forwards to the base constructor with `ref_model=None` and the given
perturbation models.  There is no validation of the model set. -/
def PerturbationAttack.init (config : ExperimentConfig) (model : Model)
    (perturbation_models : List Model) : AttackState :=
  Attack.init config model none (some perturbation_models) true

/-- `PerturbationAttack._attack` (perturbation.py lines 20-32), instrumented
with the list of ids of the models whose `get_ll` was invoked: uses the
caller-supplied `loss` kwarg when present (otherwise calls the target model),
sums each perturbation model's `get_ll(document, probs=None, tokens=tokens)`,
divides by the number of perturbation models (a Python ZeroDivisionError when
there are none, a TypeError when the set is `None`), and returns
`loss - perturb_loss`. -/
def PerturbationAttack.attackWithCalls (a : AttackState) (document : Py)
    (probs : Option Probs) (tokens : Option Py) (kw : Kwargs) :
    List Nat × Except String Score :=
  let first :=
    match kw.loss with
    | some l => (([] : List Nat), l)
    | none => ([a.target_model.id], a.target_model.get_ll document tokens probs)
  match a.perturb_models with
  | none => (first.1, .error "TypeError: argument of type NoneType is not iterable")
  | some pms =>
    let calls := first.1 ++ pms.map Model.id
    if pms.length = 0 then
      (calls, .error "ZeroDivisionError: float division by zero")
    else
      (calls,
       .ok (first.2 - (pms.map (fun p => p.get_ll document tokens none)).sum
              / (pms.length : Score)))

/-- The `_attack` of the perturbation strategy as a plain `ScoreFn` (call
trace dropped), for use through the `Attack.attack` entrypoint. -/
def PerturbationAttack.score (a : AttackState) : ScoreFn :=
  fun document tokens probs kw =>
    (PerturbationAttack.attackWithCalls a document probs tokens kw).2

/-! ## The scoring pipeline (src/notebooks/new_mi_experiment.py) -/

/-- An entry of `attackers_dict`: an attack strategy instance, i.e. its
base-class state together with its `_attack` scoring function (the concrete
subclass detail).  `Attack.attack` applied to these two is the entrypoint the
pipeline calls.  The pipeline's score values never depend on the `is_loaded`
mutation performed by `Attack.attack`, so the pipeline below does not thread
the mutated state; the lifecycle itself is verified on `Attack` directly. -/
structure PAttacker where
  state : AttackState
  score : ScoreFn

/-- Ordered association-list lookup (Python `dict` access /
`dict.get(k, None)`). -/
def assocLookup {α : Type} (m : List (String × α)) (k : String) : Option α :=
  match m with
  | [] => none
  | (k1, v) :: rest => if k1 = k then some v else assocLookup rest k

/-- Python `dict[k] = v`: overwrite in place, or append a new key at the
end, preserving first-insertion order. -/
def dictSet {α : Type} (m : List (String × α)) (k : String) (v : α) :
    List (String × α) :=
  match m with
  | [] => [(k, v)]
  | (k1, v1) :: rest =>
    if k1 = k then (k, v) :: rest else (k1, v1) :: dictSet rest k v

/-- `defaultdict(list)` update `d[k].append(v)`. -/
def assocAppend (m : List (String × List Score)) (k : String) (v : Score) :
    List (String × List Score) :=
  match m with
  | [] => [(k, [v])]
  | (k1, vs) :: rest =>
    if k1 = k then (k1, vs ++ [v]) :: rest else (k1, vs) :: assocAppend rest k v

/-- `defaultdict(list)` update `d[k].extend(vs)` (creates the key even when
`vs` is empty, as Python does). -/
def assocExtend (m : List (String × List Score)) (k : String) (vs : List Score) :
    List (String × List Score) :=
  match m with
  | [] => [(k, vs)]
  | (k1, vs1) :: rest =>
    if k1 = k then (k1, vs1 ++ vs) :: rest else (k1, vs1) :: assocExtend rest k vs

/-- The per-document accumulator `sample_information`: the raw sample, its
optional detokenized form, and the attack-identifier → per-substring score
lists (a `defaultdict(list)`, insertion ordered). -/
structure SampleInfo where
  sample : Py
  detokenized : Option (List Py)
  scores : List (String × List Score)

def SampleInfo.append (si : SampleInfo) (k : String) (v : Score) : SampleInfo :=
  { si with scores := assocAppend si.scores k v }

def SampleInfo.extendKey (si : SampleInfo) (k : String) (vs : List Score) :
    SampleInfo :=
  { si with scores := assocExtend si.scores k vs }

/-- The neighbor cache `data["neighbors"]`: perturbation count →
per-document-position → per-substring-index → neighbor substrings. -/
abbrev Neighbors := List (Nat × List (List (List Py)))

/-- The dataset as the pipeline reads it: `data["records"]` and the optional
`data["neighbors"]`. -/
structure MiaData where
  records : List Py
  neighbors : Option Neighbors

def nbFind (nbs : Neighbors) (n : Nat) : Option (List (List (List Py))) :=
  match nbs with
  | [] => none
  | (k, v) :: rest => if k = n then some v else nbFind rest n

/-- `neighbors[n_perturbation][batch * batch_size + idx][i]`
(new_mi_experiment.py lines 165-167); a missing key or index raises. -/
def nbLookup (nbs : Neighbors) (n pos i : Nat) : Except String (List Py) :=
  match nbFind nbs n with
  | none => .error "KeyError: n_perturbation"
  | some perDoc =>
    match perDoc[pos]? with
    | none => .error "IndexError: document position"
    | some perSub =>
      match perSub[i]? with
      | none => .error "IndexError: substring index"
      | some l => .ok l

/-- Python truthiness of the `neighbors` variable (`None` or a dict). -/
def neighborsTruthy : Option Neighbors → Bool
  | some l => !l.isEmpty
  | none => false

/-- Trace events emitted by the pipeline embedding, recording the order of
the model-facing operations: the primary pass's per-substring
`get_probabilities` / `get_ll` calls and attack invocations, and the
reference pass's attack invocations (with the `probs` argument they pass)
and strategy unloads. -/
inductive PipeEvent where
  | probsEv (docPos substrIdx : Nat)
  | lossEv (docPos substrIdx : Nat)
  | attackEv (key : String) (docPos substrIdx : Nat)
  | refEv (key : String) (docPos substrIdx : Nat) (probsArg : Option Probs)
  | unloadEv (key : String)
deriving DecidableEq

/-- Lines 94-98 of new_mi_experiment.py: the `neighbors` variable is set from
`data["neighbors"]` only when the neighborhood attack is among the attackers
and `neigh_config.load_from_cache` is set (reading `load_from_cache` from a
missing neighborhood config, or a missing `"neighbors"` key, raises). -/
def neighborsInit (cfg : ExperimentConfig) (attackers : List (String × PAttacker))
    (data : MiaData) : Except String (Option Neighbors) :=
  if attackers.any (fun p => p.1 = AllAttacks.NEIGHBOR.value) then
    match cfg.neighborhood_config with
    | none => .error "AttributeError: NoneType has no attribute load_from_cache"
    | some nc =>
      if nc.load_from_cache then
        match data.neighbors with
        | none => .error "KeyError: neighbors"
        | some nbs => .ok (some nbs)
      else .ok none
  else .ok none

/-- The document-sample selection (new_mi_experiment.py lines 108-112):
`texts[idx][: config.max_substrs] if config.full_doc else [texts[idx]]`. -/
def docSample (cfg : ExperimentConfig) (text : Py) : Py :=
  if cfg.full_doc then text.slice cfg.max_substrs else Py.list [text]

/-- The inner loop over `n_perturbation_list` for the neighborhood attack
(lines 161-185): when the `neighbors` variable is truthy and
`dump_cache` is off, look up the cached neighbors, invoke the strategy and
append under the count-suffixed key; otherwise do nothing for this count. -/
def neighborLoop (nbs : Option Neighbors) (dump_cache : Bool) (pos i : Nat)
    (substr : Py) (probs : Probs) (detok_i : Option Py) (loss : Score)
    (attack : String) (atk : PAttacker) :
    List Nat → SampleInfo → List PipeEvent →
    Except String (SampleInfo × List PipeEvent)
  | [], si, tr => .ok (si, tr)
  | n :: ns, si, tr =>
    if neighborsTruthy nbs = true ∧ dump_cache = false then do
      let substr_neighbors ← nbLookup (nbs.getD []) n pos i
      let score ← (Attack.attack atk.score atk.state substr (some probs)
        { detokenized_sample := detok_i, loss := some loss,
          batch_size := some 4, substr_neighbors := some substr_neighbors }).2
      neighborLoop nbs dump_cache pos i substr probs detok_i loss attack atk ns
        (si.append (attack ++ "-" ++ toString n) score)
        (tr ++ [.attackEv (attack ++ "-" ++ toString n) pos i])
    else
      neighborLoop nbs dump_cache pos i substr probs detok_i loss attack atk ns si tr

/-- Python `attack.startswith(pre)`, implemented over the character lists so
that it evaluates by definitional unfolding. -/
def pyStartsWith (s pre : String) : Bool := pre.data.isPrefixOf s.data

/-- The loop over `attackers_dict.items()` for one substring (lines 143-185):
reference-based keys and the loss key are skipped; the neighborhood attack
runs `neighborLoop`; every other attack is invoked with the shared
probabilities and loss and its score appended under its key. -/
def attackerLoop (neighCfg : Option NeighborhoodConfig) (nbs : Option Neighbors)
    (pos i : Nat) (substr : Py) (probs : Probs) (detok_i : Option Py)
    (loss : Score) :
    List (String × PAttacker) → SampleInfo → List PipeEvent →
    Except String (SampleInfo × List PipeEvent)
  | [], si, tr => .ok (si, tr)
  | (attack, atk) :: rest, si, tr =>
    if pyStartsWith attack AllAttacks.REFERENCE_BASED.value = true
        ∨ attack = AllAttacks.LOSS.value then
      attackerLoop neighCfg nbs pos i substr probs detok_i loss rest si tr
    else if attack ≠ AllAttacks.NEIGHBOR.value then do
      let score ← (Attack.attack atk.score atk.state substr (some probs)
        { detokenized_sample := detok_i, loss := some loss,
          batch_size := none, substr_neighbors := none }).2
      attackerLoop neighCfg nbs pos i substr probs detok_i loss rest
        (si.append attack score) (tr ++ [.attackEv attack pos i])
    else
      match neighCfg with
      | none => .error "NameError: name n_perturbation_list is not defined"
      | some nc => do
        let (si1, tr1) ← neighborLoop nbs nc.dump_cache pos i substr probs
          detok_i loss attack atk nc.n_perturbation_list si tr
        attackerLoop neighCfg nbs pos i substr probs detok_i loss rest si1 tr1

/-- The loop over `enumerate(sample)` (lines 121-185): per substring, compute
the (text, tokens) argument pair from the pretokenization mode, compute token
probabilities once, compute and record the loss score, then run the attacker
loop. -/
def substrLoop (cfg : ExperimentConfig) (neighCfg : Option NeighborhoodConfig)
    (nbs : Option Neighbors) (attackers : List (String × PAttacker)) (tm : Model)
    (pos : Nat) (detok : Option (List Py)) :
    List (Nat × Py) → SampleInfo → List PipeEvent →
    Except String (SampleInfo × List PipeEvent)
  | [], si, tr => .ok (si, tr)
  | (i, substr) :: rest, si, tr => do
    -- (text, tokens) as passed to get_probabilities / get_ll (lines 123-138)
    let tp : Py × Option Py ←
      if cfg.pretokenized then
        match detok with
        | none => .error "NameError: name detokenized_sample is not defined"
        | some l =>
          match l[i]? with
          | none => .error "IndexError: detokenized_sample"
          | some d => .ok (d, some substr)
      else .ok (substr, none)
    let probs := tm.get_probabilities tp.1 tp.2
    let loss := tm.get_ll tp.1 tp.2 (some probs)
    let detok_i : Option Py := if cfg.pretokenized then some tp.1 else none
    let (si1, tr1) ← attackerLoop neighCfg nbs pos i substr probs detok_i loss
      attackers (si.append AllAttacks.LOSS.value loss)
      (tr ++ [.probsEv pos i, .lossEv pos i])
    substrLoop cfg neighCfg nbs attackers tm pos detok rest si1 tr1

/-- Processing of one document at absolute position `pos` (lines 106-189):
select the substring list, detokenize it when pretokenized, then run the
substring loop starting from a fresh `sample_information`. -/
def processDoc (cfg : ExperimentConfig) (neighCfg : Option NeighborhoodConfig)
    (nbs : Option Neighbors) (attackers : List (String × PAttacker)) (tm : Model)
    (pos : Nat) (text : Py) : Except String (SampleInfo × List PipeEvent) :=
  let sample := docSample cfg text
  let detok : Option (List Py) :=
    if cfg.pretokenized then some (sample.elems.map tm.decode) else none
  substrLoop cfg neighCfg nbs attackers tm pos detok sample.elems.enum
    { sample := sample, detokenized := detok, scores := [] } []

/-- The loop over `range(len(texts))` within one batch; `base` is
`batch * batch_size`. -/
def docLoop (cfg : ExperimentConfig) (neighCfg : Option NeighborhoodConfig)
    (nbs : Option Neighbors) (attackers : List (String × PAttacker)) (tm : Model)
    (base : Nat) :
    List (Nat × Py) → List SampleInfo → List PipeEvent →
    Except String (List SampleInfo × List PipeEvent)
  | [], results, tr => .ok (results, tr)
  | (idx, text) :: rest, results, tr => do
    let (si, trd) ← processDoc cfg neighCfg nbs attackers tm (base + idx) text
    docLoop cfg neighCfg nbs attackers tm base rest (results ++ [si]) (tr ++ trd)

/-- The batch loop (lines 102-103):
`texts = data["records"][batch * batch_size : (batch + 1) * batch_size]`. -/
def batchLoop (cfg : ExperimentConfig) (neighCfg : Option NeighborhoodConfig)
    (nbs : Option Neighbors) (attackers : List (String × PAttacker)) (tm : Model)
    (records : List Py) (bs : Nat) :
    List Nat → List SampleInfo → List PipeEvent →
    Except String (List SampleInfo × List PipeEvent)
  | [], results, tr => .ok (results, tr)
  | b :: brest, results, tr => do
    let texts := (records.drop (b * bs)).take bs
    let (results1, tr1) ← docLoop cfg neighCfg nbs attackers tm (b * bs)
      texts.enum results tr
    batchLoop cfg neighCfg nbs attackers tm records bs brest results1 tr1

/-- `math.ceil(n_samples / batch_size)`. -/
def ceilDiv (n bs : Nat) : Nat := (n + bs - 1) / bs

/-- The reference pass's loop over `enumerate(r["sample"])` for one record
(lines 201-207): in pretokenized mode the scored text is taken from
`r["detokenized"]`; the attack is invoked with `probs=None` and the stored
loss `r[LOSS][i]`. -/
def refScoresLoop (cfg : ExperimentConfig) (atk : PAttacker) (d : Nat)
    (key : String) (detok : Option (List Py)) (losses : List Score) :
    List (Nat × Py) → List Score → List PipeEvent →
    Except String (List Score × List PipeEvent)
  | [], scores, tr => .ok (scores, tr)
  | (i, s) :: rest, scores, tr => do
    let s1 : Py ←
      if cfg.pretokenized then
        match detok with
        | none => .error "IndexError: detokenized"
        | some l =>
          match l[i]? with
          | none => .error "IndexError: detokenized"
          | some d => .ok d
      else .ok s
    let loss_i : Score ←
      match losses[i]? with
      | none => .error "IndexError: loss"
      | some l => .ok l
    let score ← (Attack.attack atk.score atk.state s1 none
      { detokenized_sample := none, loss := some loss_i,
        batch_size := none, substr_neighbors := none }).2
    refScoresLoop cfg atk d key detok losses rest (scores ++ [score])
      (tr ++ [.refEv key d i none])

/-- The reference pass's loop over `results` for one reference model
(lines 200-208): compute the per-substring reference scores of each record
and extend the record's count list under the reference key. -/
def refDocsLoop (cfg : ExperimentConfig) (atk : PAttacker) (key : String) :
    List (Nat × SampleInfo) → List SampleInfo → List PipeEvent →
    Except String (List SampleInfo × List PipeEvent)
  | [], acc, tr => .ok (acc, tr)
  | (d, r) :: rest, acc, tr => do
    let losses := (assocLookup r.scores AllAttacks.LOSS.value).getD []
    let (scores, tr1) ← refScoresLoop cfg atk d key r.detokenized losses
      r.sample.elems.enum [] tr
    refDocsLoop cfg atk key rest (acc ++ [r.extendKey key scores]) tr1

/-- `name.split('/')[-1]`: the characters after the last slash (the whole
name when it has no slash), implemented over the character list so that it
evaluates by definitional unfolding. -/
def lastComponent (s : String) : String :=
  ⟨s.data.foldl (fun acc ch => if ch = '/' then [] else acc ++ [ch]) []⟩

/-- The reference key `f"{BlackBoxAttacks.REFERENCE_BASED}-{name.split('/')[-1]}"`. -/
def refKeyOf (name : String) : String :=
  AllAttacks.REFERENCE_BASED.value ++ "-" ++ lastComponent name

/-- The loop over `ref_models.items()` (lines 193-210): a reference model
whose key has no attacker is skipped; otherwise all records are scored and
then that strategy is unloaded before the next reference model is visited. -/
def refModelsLoop (cfg : ExperimentConfig)
    (attackers : List (String × PAttacker)) :
    List (String × Model) → List SampleInfo → List PipeEvent →
    Except String (List SampleInfo × List PipeEvent)
  | [], results, tr => .ok (results, tr)
  | (name, _) :: rest, results, tr =>
    match assocLookup attackers (refKeyOf name) with
    | none => refModelsLoop cfg attackers rest results tr
    | some atk => do
      let (results1, tr1) ← refDocsLoop cfg atk (refKeyOf name) results.enum [] tr
      refModelsLoop cfg attackers rest results1 (tr1 ++ [.unloadEv (refKeyOf name)])

/-- The reference pass (lines 191-212): skipped entirely when no reference
models are configured. -/
def refPass (cfg : ExperimentConfig) (attackers : List (String × PAttacker))
    (ref_models : Option (List (String × Model))) (results : List SampleInfo) :
    Except String (List SampleInfo × List PipeEvent) :=
  match ref_models with
  | none => .ok (results, [])
  | some rms => refModelsLoop cfg attackers rms results []

/-- `np.min` over a Python list of floats: raises on an empty list. -/
def npMin : List Score → Except String Score
  | [] => .error "ValueError: zero-size array to reduction operation"
  | x :: xs => .ok (xs.foldl min x)

/-- The inner loop of the aggregation (lines 220-223): every key of a record
other than `"sample"`/`"detokenized"` (kept outside `scores` in this
embedding) contributes the minimum of its score list. -/
def aggScores (preds : List (String × List Score)) :
    List (String × List Score) → Except String (List (String × List Score))
  | [] => .ok preds
  | (k, scores) :: rest => do
    let m ← npMin scores
    aggScores (assocAppend preds k m) rest

/-- The aggregation loop over `results` (lines 216-223), collecting the
`samples` list and the per-attack aggregate predictions. -/
def aggLoop (preds : List (String × List Score)) (samples : List Py) :
    List SampleInfo → Except String (List (String × List Score) × List Py)
  | [] => .ok (preds, samples)
  | r :: rest => do
    let preds1 ← aggScores preds r.scores
    aggLoop preds1 (samples ++ [r.sample]) rest

/-- The whole aggregation stage. -/
def aggregate (results : List SampleInfo) :
    Except String (List (String × List Score) × List Py) :=
  aggLoop [] [] results

/-- The pipeline's output: the final `predictions` table and `samples` list
(the function's return value), plus the final `results` records and the
event trace, exposed for specification purposes. -/
structure MiaOutput where
  predictions : List (String × List Score)
  samples : List Py
  results : List SampleInfo
  trace : List PipeEvent

/-- `get_mia_scores` (new_mi_experiment.py lines 73-225): primary pass in
batches over the records, then the reference pass, then aggregation. -/
def get_mia_scores (data : MiaData) (attackers : List (String × PAttacker))
    (tm : Model) (ref_models : Option (List (String × Model)))
    (cfg : ExperimentConfig) (n_samples : Option Nat) (batch_size : Nat) :
    Except String MiaOutput := do
  let n := n_samples.getD data.records.length
  let nbs ← neighborsInit cfg attackers data
  let (results, tr1) ← batchLoop cfg cfg.neighborhood_config nbs attackers tm
    data.records batch_size (List.range (ceilDiv n batch_size)) [] []
  let (results1, tr2) ← refPass cfg attackers ref_models results
  let (preds, samples) ← aggregate results1
  pure { predictions := preds, samples := samples, results := results1,
         trace := tr1 ++ tr2 }

/-! ## Attacker construction (new_mi_experiment.py, `get_attackers`) -/

/-- The filtering loop of `get_attackers` (lines 49-55).  Note the source's
loop body: an unimplemented attack identifier only triggers a
`print(f"Attack {a} not implemented, will be ignored")` followed by `pass`;
the `runnable_attacks.append(a)` below it is NOT skipped (there is no
`continue`), so both branches of this embedding append. -/
def runnable_attacks (attacks : List String) : List String :=
  attacks.foldl (fun acc a =>
    if a ∈ implemented_blackbox_attacks then
      acc ++ [a]
    else
      acc ++ [a]) []

/-- Modelled from the spec: `mimir.attacks.utils.get_attacker` is imported by
the experiment script but its module is not among the shown sources.  Per the
spec, the AttackRegistry "maps an attack identifier to a constructor for the
corresponding AttackStrategy, validating configured attack names against the
implemented set"; we model it as a lookup that fails on an identifier outside
the implemented set and otherwise returns a constructor (the concrete
per-strategy scoring function is an out-of-scope collaborator detail,
abstracted as the `mkScore` parameter). -/
def get_attacker (mkScore : String → ScoreFn) (attack : String) :
    Except String (ExperimentConfig → Model → PAttacker) :=
  if attack ∈ implemented_blackbox_attacks then
    .ok (fun cfg m =>
      { state := Attack.init cfg m none none true, score := mkScore attack })
  else .error ("KeyError: " ++ attack)

/-- `get_attackers` (lines 40-70): run the (non-)filtering loop, construct an
attacker for every runnable non-reference identifier through the registry,
then add one reference-based attacker per reference model under its
namespaced key. -/
def get_attackers (mkScore : String → ScoreFn) (target_model : Model)
    (ref_models : Option (List (String × Model))) (cfg : ExperimentConfig) :
    Except String (List (String × PAttacker)) := do
  let attacks := runnable_attacks cfg.blackbox_attacks
  let attackers ← attacks.foldlM (fun acc attack =>
    if attack = AllAttacks.REFERENCE_BASED.value then pure acc
    else do
      let ctor ← get_attacker mkScore attack
      pure (dictSet acc attack (ctor cfg target_model)))
    ([] : List (String × PAttacker))
  match ref_models with
  | none => pure attackers
  | some rms =>
    -- the registry lookup for REFERENCE_BASED always succeeds; the
    -- constructed strategy owns the reference model
    pure (rms.foldl (fun acc p =>
      dictSet acc (refKeyOf p.1)
        { state := Attack.init cfg target_model (some p.2) none true,
          score := mkScore AllAttacks.REFERENCE_BASED.value }) attackers)

/-! ## Basic lemmas about the attack base class -/

theorem Attack.load_config (a : AttackState) : (Attack.load a).config = a.config := by
  obtain ⟨cfg, tm, rm, pm, il, ib⟩ := a
  cases rm <;> cases pm <;> rfl

theorem Attack.attack_fst (f : ScoreFn) (a : AttackState) (doc : Py)
    (probs : Option Probs) (kw : Kwargs) :
    (Attack.attack f a doc probs kw).1
      = if a.is_loaded then a else { Attack.load a with is_loaded := true } := by
  unfold Attack.attack
  cases kw.detokenized_sample <;>
    cases h : (if a.is_loaded then a
      else { Attack.load a with is_loaded := true }).config.pretokenized <;>
    simp [h]

theorem Attack.attack_snd (f : ScoreFn) (a : AttackState) (doc : Py)
    (probs : Option Probs) (kw : Kwargs) :
    (Attack.attack f a doc probs kw).2 =
      match kw.detokenized_sample, a.config.pretokenized with
      | none, true => .error "detokenized_sample must be provided"
      | some d, true => f d (some doc) probs kw
      | _, false => f doc none probs kw := by
  obtain ⟨⟨pt, fd, ms, ba, nc, rs⟩, tm, rm, pm, il, ib⟩ := a
  obtain ⟨ds, ls, bsz, nb⟩ := kw
  cases ds <;> cases pt <;> cases il <;> cases rm <;> cases pm <;> rfl

/-! ## Test fixtures used by the closed witness theorems -/

/-- A concrete model whose `get_ll` is constantly `v`. -/
def testModel (i : Nat) (v : Score) : Model :=
  { id := i, loaded := false, get_probabilities := fun _ _ => [],
    get_ll := fun _ _ _ => v, decode := fun p => p }

/-- A concrete minimal configuration. -/
def testCfg : ExperimentConfig :=
  { pretokenized := false, full_doc := false, max_substrs := 1,
    blackbox_attacks := [], neighborhood_config := none, random_seed := 0 }

/-- The same configuration in pretokenized mode. -/
def testCfgPre : ExperimentConfig := { testCfg with pretokenized := true }

/-! ## C6: the pretokenized/detokenized_sample contract of attack() -/

/-- C6: For every attack strategy (any total `_attack` scoring function `g`
and any state), `attack()` raises the configuration error exactly when the
configuration marks input as pretokenized and no `detokenized_sample` is
supplied; and when `pretokenized` is false the call never requires a
detokenized sample — it returns the `_attack` score of the raw document. -/
theorem attack_pretokenized_contract
    (g : Py → Option Py → Option Probs → Kwargs → Score) (a : AttackState)
    (doc : Py) (probs : Option Probs) (kw : Kwargs) :
    ((Attack.attack (fun d t p k => .ok (g d t p k)) a doc probs kw).2
        = .error "detokenized_sample must be provided"
      ↔ a.config.pretokenized = true ∧ kw.detokenized_sample = none)
    ∧ (a.config.pretokenized = false →
      (Attack.attack (fun d t p k => .ok (g d t p k)) a doc probs kw).2
        = .ok (g doc none probs kw)) := by
  rw [Attack.attack_snd]
  constructor
  · constructor
    · intro h
      cases hd : kw.detokenized_sample <;> cases hp : a.config.pretokenized <;>
        simp [hd, hp] at h ⊢
    · rintro ⟨hp, hd⟩
      simp [hd, hp]
  · intro hp
    cases hd : kw.detokenized_sample <;> simp [hd, hp]

/-- C6 witness: a concrete pretokenized strategy called without a
detokenized sample raises the configuration error. -/
theorem attack_pretokenized_contract_witness :
    (Attack.attack (fun d t p k => .ok ((fun _ _ _ _ => (0 : Score)) d t p k))
        (Attack.init testCfgPre (testModel 0 2) none none true) (.str "x") none
        ⟨none, none, none, none⟩).2
      = .error "detokenized_sample must be provided" :=
  (attack_pretokenized_contract (fun _ _ _ _ => (0 : Score))
      (Attack.init testCfgPre (testModel 0 2) none none true) (.str "x") none
      ⟨none, none, none, none⟩).1.mpr ⟨rfl, rfl⟩

/-! ## C9: attack() loads lazily and leaves is_loaded true -/

/-- C9: For every attack strategy, `attack()` on a not-yet-loaded strategy
runs `load()` (the resulting state is exactly the loaded state with the flag
forced on), an already-loaded strategy is left untouched, and after any
`attack()` call the `is_loaded` flag is true. -/
theorem attack_loads_lazily (f : ScoreFn) (a : AttackState) (doc : Py)
    (probs : Option Probs) (kw : Kwargs) :
    ((Attack.attack f a doc probs kw).1.is_loaded = true)
    ∧ (a.is_loaded = false →
      (Attack.attack f a doc probs kw).1 = { Attack.load a with is_loaded := true })
    ∧ (a.is_loaded = true → (Attack.attack f a doc probs kw).1 = a) := by
  rw [Attack.attack_fst]
  cases h : a.is_loaded <;> simp [h]

/-- C9 witness: on a concrete unloaded strategy, `attack()` produces the
loaded state and `is_loaded` is true afterwards. -/
theorem attack_loads_lazily_witness :
    ((Attack.attack (fun _ _ _ _ => .ok 0)
        (Attack.init testCfg (testModel 0 2) none none true) (.str "x") none
        ⟨none, none, none, none⟩).1.is_loaded = true)
    ∧ ((Attack.attack (fun _ _ _ _ => .ok 0)
        (Attack.init testCfg (testModel 0 2) none none true) (.str "x") none
        ⟨none, none, none, none⟩).1
      = { Attack.load (Attack.init testCfg (testModel 0 2) none none true)
            with is_loaded := true }) :=
  ⟨(attack_loads_lazily (fun _ _ _ _ => .ok 0)
      (Attack.init testCfg (testModel 0 2) none none true) (.str "x") none
      ⟨none, none, none, none⟩).1,
   (attack_loads_lazily (fun _ _ _ _ => .ok 0)
      (Attack.init testCfg (testModel 0 2) none none true) (.str "x") none
      ⟨none, none, none, none⟩).2.1 rfl⟩

/-! ## C10: lifecycle of a strategy owning no sub-models -/

/-- C10: For a strategy holding neither a reference model nor perturbation
models, `load()` and `unload()` are both complete no-ops (in particular they
leave `is_loaded` unchanged, so a freshly constructed such strategy — whose
flag starts false — still has `is_loaded = false` after `load()`); the flag
becomes true only through the `attack()` entrypoint, which forces it. -/
theorem bare_strategy_lifecycle (a : AttackState)
    (h1 : a.ref_model = none) (h2 : a.perturb_models = none) :
    Attack.load a = a ∧ Attack.unload a = a
    ∧ (∀ cfg tm ib, (Attack.init cfg tm none none ib).is_loaded = false)
    ∧ (∀ f doc probs kw, ((Attack.attack f a doc probs kw).1).is_loaded = true) := by
  obtain ⟨cfg, tm, rm, pm, il, ib⟩ := a
  cases h1
  cases h2
  refine ⟨rfl, rfl, fun _ _ _ => rfl, fun f doc probs kw => ?_⟩
  rw [Attack.attack_fst]
  cases il <;> rfl

/-- C10 witness: concrete strategy with no owned sub-models; `load` and
`unload` are identities on it and `attack()` sets the flag. -/
theorem bare_strategy_lifecycle_witness :
    Attack.load (Attack.init testCfg (testModel 0 2) none none true)
      = Attack.init testCfg (testModel 0 2) none none true
    ∧ Attack.unload (Attack.init testCfg (testModel 0 2) none none true)
      = Attack.init testCfg (testModel 0 2) none none true :=
  ⟨(bare_strategy_lifecycle (Attack.init testCfg (testModel 0 2) none none true)
      rfl rfl).1,
   (bare_strategy_lifecycle (Attack.init testCfg (testModel 0 2) none none true)
      rfl rfl).2.1⟩

/-! ## C3: perturbation strategy with an empty perturbation-model set -/

/-- C3 counterexample: constructing a perturbation-based strategy with an
EMPTY set of perturbation models does not fail — `PerturbationAttack.__init__`
performs no validation and simply produces the ordinary (unloaded) strategy
state, so the claim that construction with zero perturbation models "fails
fatally at construction time" is false. -/
theorem perturbation_empty_construction_succeeds :
    PerturbationAttack.init testCfg (testModel 0 2) []
      = { config := testCfg, target_model := testModel 0 2, ref_model := none,
          perturb_models := some [], is_loaded := false, is_blackbox := true } :=
  rfl

/-- C3 amended: construction with zero perturbation models succeeds (no
check is made), and the failure only surfaces when the attack is invoked:
`_attack` then divides by the model count and raises a ZeroDivisionError,
whatever the document, probabilities, tokens and remaining kwargs are. -/
theorem perturbation_empty_fails_at_attack (cfg : ExperimentConfig) (m : Model)
    (doc : Py) (probs : Option Probs) (tokens : Option Py) (kw : Kwargs) :
    (PerturbationAttack.attackWithCalls (PerturbationAttack.init cfg m [])
        doc probs tokens kw).2
      = .error "ZeroDivisionError: float division by zero" := by
  unfold PerturbationAttack.attackWithCalls PerturbationAttack.init Attack.init
  cases kw.loss <;> rfl

/-! ## C4: the perturbation attack score formula -/

/-- C4: For every non-empty set of perturbation models and every document,
when the caller supplies a precomputed `loss` L the perturbation attack
returns exactly `L - mean(perturbation losses)`, and the list of invoked
models is exactly the perturbation models — the target model's `get_ll` is
not called (so the supplied loss is never recomputed, and the result does not
depend on the target model at all). -/
theorem perturbation_score_formula (cfg : ExperimentConfig) (m : Model)
    (pms : List Model) (h : pms ≠ []) (doc : Py) (probs : Option Probs)
    (tokens : Option Py) (ds : Option Py) (bsz : Option Nat)
    (nb : Option (List Py)) (L : Score) :
    PerturbationAttack.attackWithCalls (PerturbationAttack.init cfg m pms)
        doc probs tokens ⟨ds, some L, bsz, nb⟩
      = (pms.map Model.id,
         .ok (L - (pms.map (fun p => p.get_ll doc tokens none)).sum
                / (pms.length : Score))) := by
  unfold PerturbationAttack.attackWithCalls PerturbationAttack.init Attack.init
  have hlen : ¬ pms.length = 0 := by
    exact Nat.pos_iff_ne_zero.mp (List.length_pos.mpr h)
  simp [hlen]

/-- C4 witness (the spec's scenario): one perturbation model reporting loss 3
and a supplied target loss 2 give score `2 - 3 = -1`, with only the
perturbation model invoked. -/
theorem perturbation_score_formula_witness :
    PerturbationAttack.attackWithCalls
        (PerturbationAttack.init testCfg (testModel 0 2) [testModel 7 3])
        (.str "The cat sat.") none none ⟨none, some 2, none, none⟩
      = ([7], .ok (-1)) := by
  have h := perturbation_score_formula testCfg (testModel 0 2) [testModel 7 3]
    (by simp) (.str "The cat sat.") none none none none none 2
  rw [h]
  norm_num [testModel]

/-! ## C2: requesting an unimplemented attack identifier -/

/-- C2 (evaluating the code at the failing input): the identifier `"bogus"`
is not in the implemented set, yet the filtering loop of `get_attackers` does
NOT exclude it — the loop body prints the "will be ignored" warning but its
`pass` does not skip the following `runnable_attacks.append(a)` (there is no
`continue`), so the identifier stays in the runnable list, and the subsequent
registry construction for it fails instead of the run continuing without it. -/
theorem unimplemented_attack_not_dropped :
    "bogus" ∉ implemented_blackbox_attacks
    ∧ runnable_attacks ["loss", "bogus"] = ["loss", "bogus"]
    ∧ get_attackers (fun _ => fun _ _ _ _ => .ok 0) (testModel 0 2) none
        { testCfg with blackbox_attacks := ["loss", "bogus"] }
      = .error "KeyError: bogus" :=
  ⟨by decide, rfl, rfl⟩

/-! ## C1: which branch of the sample selection applies -/

/-- The substring-list selection as claim C1 (and spec section 4.5) words it:
truncate to `max_substrs` when full-document mode is NOT set, and use the
single whole document as one substring when it IS set.  Stated here only for
comparison against `docSample`, which is the source's selection
(new_mi_experiment.py lines 108-112). -/
def docSampleSpecClaim (cfg : ExperimentConfig) (text : Py) : Py :=
  if cfg.full_doc then Py.list [text] else text.slice cfg.max_substrs

/-- C1 counterexample: with `full_doc = false` and `max_substrs = 1`, on the
two-substring record `["a", "b"]` the source uses the whole record as ONE
substring (`[texts[idx]]`), whereas the claim's wording demands the
truncation `texts[idx][:1]`; the two substring lists differ, so the claim has
the branches of the conditional swapped. -/
theorem doc_sample_claim_counterexample :
    docSample testCfg (.list [.str "a", .str "b"])
      ≠ docSampleSpecClaim testCfg (.list [.str "a", .str "b"]) := by
  unfold docSample docSampleSpecClaim testCfg Py.slice
  simp

/-! ## Plumbing lemmas for the pipeline proofs -/

theorem exceptBind_ok {α β : Type} {e : Except String α} {k : α → Except String β}
    {b : β} (h : e >>= k = .ok b) : ∃ a, e = .ok a ∧ k a = .ok b := by
  cases e with
  | error s => simp [Bind.bind, Except.bind] at h
  | ok a => exact ⟨a, rfl, by simpa [Bind.bind, Except.bind] using h⟩

theorem exceptOkBind {α β : Type} (a : α) (k : α → Except String β) :
    (Except.ok (ε := String) a >>= k) = k a := rfl

theorem exceptErrBind {α β : Type} (s : String) (k : α → Except String β) :
    (Except.error (α := α) s >>= k) = .error s := rfl

theorem enumMapSnd {α β : Type} (f : α → β) (l : List α) :
    l.enum.map (fun p => f p.2) = l.map f := by
  have h4 : (l.enum.map Prod.snd).map f = l.enum.map (fun p => f p.2) := by
    rw [List.map_map]
    rfl
  rw [← h4, List.enum_map_snd]

theorem SampleInfo.append_sample (si : SampleInfo) (k : String) (v : Score) :
    (si.append k v).sample = si.sample := rfl

theorem SampleInfo.append_detokenized (si : SampleInfo) (k : String) (v : Score) :
    (si.append k v).detokenized = si.detokenized := rfl

theorem SampleInfo.extendKey_sample (si : SampleInfo) (k : String)
    (vs : List Score) : (si.extendKey k vs).sample = si.sample := rfl

theorem neighborLoop_preserves (nbs : Option Neighbors) (dump : Bool)
    (pos i : Nat) (substr : Py) (probs : Probs) (detok_i : Option Py)
    (loss : Score) (attack : String) (atk : PAttacker) :
    ∀ (ns : List Nat) (si : SampleInfo) (tr : List PipeEvent)
      (out : SampleInfo × List PipeEvent),
      neighborLoop nbs dump pos i substr probs detok_i loss attack atk ns si tr
        = .ok out →
      out.1.sample = si.sample ∧ out.1.detokenized = si.detokenized := by
  intro ns
  induction ns with
  | nil =>
    intro si tr out h
    simp only [neighborLoop, Except.ok.injEq] at h
    subst h
    exact ⟨rfl, rfl⟩
  | cons n ns ih =>
    intro si tr out h
    simp only [neighborLoop] at h
    split at h
    · obtain ⟨sn, hnb, h⟩ := exceptBind_ok h
      obtain ⟨sc, hs, h⟩ := exceptBind_ok h
      have h5 := ih _ _ _ h
      exact h5
    · exact ih _ _ _ h

theorem attackerLoop_preserves (neighCfg : Option NeighborhoodConfig)
    (nbs : Option Neighbors) (pos i : Nat) (substr : Py) (probs : Probs)
    (detok_i : Option Py) (loss : Score) :
    ∀ (l : List (String × PAttacker)) (si : SampleInfo) (tr : List PipeEvent)
      (out : SampleInfo × List PipeEvent),
      attackerLoop neighCfg nbs pos i substr probs detok_i loss l si tr = .ok out →
      out.1.sample = si.sample ∧ out.1.detokenized = si.detokenized := by
  intro l
  induction l with
  | nil =>
    intro si tr out h
    simp only [attackerLoop, Except.ok.injEq] at h
    subst h
    exact ⟨rfl, rfl⟩
  | cons p rest ih =>
    intro si tr out h
    simp only [attackerLoop] at h
    split at h
    · exact ih _ _ _ h
    · split at h
      · obtain ⟨sc, hs, h⟩ := exceptBind_ok h
        have h5 := ih _ _ _ h
        exact h5
      · split at h
        · exact Except.noConfusion h
        · obtain ⟨q, hq, h⟩ := exceptBind_ok h
          obtain ⟨si1, tr1⟩ := q
          have h1 := neighborLoop_preserves nbs _ pos i substr probs detok_i
            loss p.1 p.2 _ _ _ _ hq
          have h2 := ih _ _ _ h
          exact ⟨h2.1.trans h1.1, h2.2.trans h1.2⟩

theorem substrLoop_preserves (cfg : ExperimentConfig)
    (neighCfg : Option NeighborhoodConfig) (nbs : Option Neighbors)
    (attackers : List (String × PAttacker)) (tm : Model) (pos : Nat)
    (detok : Option (List Py)) :
    ∀ (l : List (Nat × Py)) (si : SampleInfo) (tr : List PipeEvent)
      (out : SampleInfo × List PipeEvent),
      substrLoop cfg neighCfg nbs attackers tm pos detok l si tr = .ok out →
      out.1.sample = si.sample ∧ out.1.detokenized = si.detokenized := by
  intro l
  induction l with
  | nil =>
    intro si tr out h
    simp only [substrLoop, Except.ok.injEq] at h
    subst h
    exact ⟨rfl, rfl⟩
  | cons p rest ih =>
    intro si tr out h
    simp only [substrLoop] at h
    split at h
    · split at h
      · rw [exceptErrBind] at h
        exact Except.noConfusion h
      · split at h
        · rw [exceptErrBind] at h
          exact Except.noConfusion h
        · rw [exceptOkBind] at h
          obtain ⟨q, hq, h⟩ := exceptBind_ok h
          obtain ⟨si1, tr1⟩ := q
          have h1 := attackerLoop_preserves neighCfg nbs pos p.1 p.2 _ _ _ _ _ _ _ hq
          have h2 := ih _ _ _ h
          exact ⟨h2.1.trans h1.1, h2.2.trans h1.2⟩
    · rw [exceptOkBind] at h
      obtain ⟨q, hq, h⟩ := exceptBind_ok h
      obtain ⟨si1, tr1⟩ := q
      have h1 := attackerLoop_preserves neighCfg nbs pos p.1 p.2 _ _ _ _ _ _ _ hq
      have h2 := ih _ _ _ h
      exact ⟨h2.1.trans h1.1, h2.2.trans h1.2⟩

theorem processDoc_shape (cfg : ExperimentConfig)
    (neighCfg : Option NeighborhoodConfig) (nbs : Option Neighbors)
    (attackers : List (String × PAttacker)) (tm : Model) (pos : Nat) (text : Py)
    (out : SampleInfo × List PipeEvent)
    (h : processDoc cfg neighCfg nbs attackers tm pos text = .ok out) :
    out.1.sample = docSample cfg text
    ∧ out.1.detokenized = (if cfg.pretokenized then
        some ((docSample cfg text).elems.map tm.decode) else none) := by
  unfold processDoc at h
  have := substrLoop_preserves cfg neighCfg nbs attackers tm pos _ _ _ _ _ h
  exact this

theorem docLoop_samples (cfg : ExperimentConfig)
    (neighCfg : Option NeighborhoodConfig) (nbs : Option Neighbors)
    (attackers : List (String × PAttacker)) (tm : Model) (base : Nat) :
    ∀ (l : List (Nat × Py)) (results : List SampleInfo) (tr : List PipeEvent)
      (out : List SampleInfo × List PipeEvent),
      docLoop cfg neighCfg nbs attackers tm base l results tr = .ok out →
      out.1.map SampleInfo.sample
        = results.map SampleInfo.sample ++ l.map (fun p => docSample cfg p.2) := by
  intro l
  induction l with
  | nil =>
    intro results tr out h
    simp only [docLoop, Except.ok.injEq] at h
    subst h
    simp
  | cons p rest ih =>
    intro results tr out h
    simp only [docLoop] at h
    obtain ⟨q, hq, h⟩ := exceptBind_ok h
    obtain ⟨si, trd⟩ := q
    have h1 : si.sample = docSample cfg p.2 :=
      (processDoc_shape cfg neighCfg nbs attackers tm _ _ _ hq).1
    have h2 := ih _ _ _ h
    rw [h2, List.map_append]
    simp [h1]

theorem batchLoop_samples (cfg : ExperimentConfig)
    (neighCfg : Option NeighborhoodConfig) (nbs : Option Neighbors)
    (attackers : List (String × PAttacker)) (tm : Model) (records : List Py)
    (bs : Nat) :
    ∀ (bl : List Nat) (results : List SampleInfo) (tr : List PipeEvent)
      (out : List SampleInfo × List PipeEvent),
      batchLoop cfg neighCfg nbs attackers tm records bs bl results tr = .ok out →
      out.1.map SampleInfo.sample
        = results.map SampleInfo.sample
          ++ (bl.flatMap (fun b => (records.drop (b * bs)).take bs)).map
              (docSample cfg) := by
  intro bl
  induction bl with
  | nil =>
    intro results tr out h
    simp only [batchLoop, Except.ok.injEq] at h
    subst h
    simp
  | cons b brest ih =>
    intro results tr out h
    simp only [batchLoop] at h
    obtain ⟨q, hq, h⟩ := exceptBind_ok h
    obtain ⟨results1, tr1⟩ := q
    have h1 : results1.map SampleInfo.sample
        = results.map SampleInfo.sample
          ++ (((records.drop (b * bs)).take bs).enum).map
              (fun p => docSample cfg p.2) :=
      docLoop_samples cfg neighCfg nbs attackers tm _ _ _ _ _ hq
    have h2 : out.1.map SampleInfo.sample
        = results1.map SampleInfo.sample
          ++ (brest.flatMap (fun b => (records.drop (b * bs)).take bs)).map
              (docSample cfg) := ih _ _ _ h
    rw [h2, h1, enumMapSnd, List.flatMap_cons, List.map_append, List.append_assoc]

theorem refDocsLoop_samples (cfg : ExperimentConfig) (atk : PAttacker)
    (key : String) :
    ∀ (l : List (Nat × SampleInfo)) (acc : List SampleInfo) (tr : List PipeEvent)
      (out : List SampleInfo × List PipeEvent),
      refDocsLoop cfg atk key l acc tr = .ok out →
      out.1.map SampleInfo.sample
        = acc.map SampleInfo.sample ++ l.map (fun p => p.2.sample) := by
  intro l
  induction l with
  | nil =>
    intro acc tr out h
    simp only [refDocsLoop, Except.ok.injEq] at h
    subst h
    simp
  | cons p rest ih =>
    intro acc tr out h
    simp only [refDocsLoop] at h
    obtain ⟨q, hq, h⟩ := exceptBind_ok h
    obtain ⟨scores, tr1⟩ := q
    have h2 := ih _ _ _ h
    rw [h2, List.map_append]
    simp [SampleInfo.extendKey_sample]

theorem refModelsLoop_samples (cfg : ExperimentConfig)
    (attackers : List (String × PAttacker)) :
    ∀ (rms : List (String × Model)) (results : List SampleInfo)
      (tr : List PipeEvent) (out : List SampleInfo × List PipeEvent),
      refModelsLoop cfg attackers rms results tr = .ok out →
      out.1.map SampleInfo.sample = results.map SampleInfo.sample := by
  intro rms
  induction rms with
  | nil =>
    intro results tr out h
    simp only [refModelsLoop, Except.ok.injEq] at h
    subst h
    rfl
  | cons p rest ih =>
    intro results tr out h
    simp only [refModelsLoop] at h
    split at h
    · exact ih _ _ _ h
    · obtain ⟨q, hq, h⟩ := exceptBind_ok h
      obtain ⟨results1, tr1⟩ := q
      have h1 : results1.map SampleInfo.sample
          = results.enum.map (fun p => p.2.sample) := by
        have h3 := refDocsLoop_samples cfg _ _ _ _ _ _ hq
        simpa using h3
      have h2 := ih _ _ _ h
      rw [h2]
      have h4 : results.enum.map (fun p => p.2.sample)
          = results.map SampleInfo.sample := enumMapSnd SampleInfo.sample results
      rw [h1, h4]

theorem refPass_samples (cfg : ExperimentConfig)
    (attackers : List (String × PAttacker))
    (rms : Option (List (String × Model))) (results : List SampleInfo)
    (out : List SampleInfo × List PipeEvent)
    (h : refPass cfg attackers rms results = .ok out) :
    out.1.map SampleInfo.sample = results.map SampleInfo.sample := by
  unfold refPass at h
  cases rms with
  | none =>
    simp only [Except.ok.injEq] at h
    subst h
    rfl
  | some l => exact refModelsLoop_samples cfg attackers l _ _ _ h

theorem aggLoop_samples :
    ∀ (results : List SampleInfo) (preds : List (String × List Score))
      (samples : List Py) (out : List (String × List Score) × List Py),
      aggLoop preds samples results = .ok out →
      out.2 = samples ++ results.map SampleInfo.sample := by
  intro results
  induction results with
  | nil =>
    intro preds samples out h
    simp only [aggLoop, Except.ok.injEq] at h
    subst h
    simp
  | cons r rest ih =>
    intro preds samples out h
    simp only [aggLoop] at h
    obtain ⟨preds1, hp, h⟩ := exceptBind_ok h
    have h2 := ih _ _ _ h
    rw [h2]
    simp

theorem range_flatMap_slices (records : List Py) (bs : Nat) :
    ∀ k : Nat, (List.range k).flatMap (fun b => (records.drop (b * bs)).take bs)
      = records.take (k * bs) := by
  intro k
  induction k with
  | zero => simp
  | succ n ih =>
    rw [List.range_succ, List.flatMap_append, ih]
    simp only [List.flatMap_cons, List.flatMap_nil, List.append_nil]
    rw [Nat.succ_mul, List.take_add]

/-- Eliminator for a successful pipeline run: the four stages succeeded in
order and the output is assembled from their results. -/
theorem get_mia_scores_ok_elim (data : MiaData)
    (attackers : List (String × PAttacker)) (tm : Model)
    (rms : Option (List (String × Model))) (cfg : ExperimentConfig)
    (ns : Option Nat) (bs : Nat) (out : MiaOutput)
    (h : get_mia_scores data attackers tm rms cfg ns bs = .ok out) :
    ∃ nbs pq rq agg,
      neighborsInit cfg attackers data = .ok nbs
      ∧ batchLoop cfg cfg.neighborhood_config nbs attackers tm data.records bs
          (List.range (ceilDiv (ns.getD data.records.length) bs)) [] [] = .ok pq
      ∧ refPass cfg attackers rms pq.1 = .ok rq
      ∧ aggregate rq.1 = .ok agg
      ∧ out = { predictions := agg.1, samples := agg.2, results := rq.1,
                trace := pq.2 ++ rq.2 } := by
  unfold get_mia_scores at h
  obtain ⟨nbs, h1, h⟩ := exceptBind_ok h
  obtain ⟨pq, h2, h⟩ := exceptBind_ok h
  obtain ⟨p1, p2⟩ := pq
  obtain ⟨rq, h3, h⟩ := exceptBind_ok h
  obtain ⟨r1, r2⟩ := rq
  obtain ⟨agg, h4, h⟩ := exceptBind_ok h
  obtain ⟨a1, a2⟩ := agg
  simp only [pure, Except.pure, Except.ok.injEq] at h
  exact ⟨nbs, (p1, p2), (r1, r2), (a1, a2), h1, h2, h3, h4, h.symm⟩

/-! ## C1 (amended): the substring lists the pipeline scores -/

/-- C1 amended: for every successful run, the returned `samples` (the
substring list scored for each processed document, in input order) are
obtained from the processed records — the first
`ceil(n_samples / batch_size) * batch_size` records — by the selection
`text[:max_substrs]` when `full_doc` IS set and the one-element list
`[text]` when `full_doc` is NOT set (the converse of the claim's wording,
whose branches are swapped). -/
theorem pipeline_sample_selection (data : MiaData)
    (attackers : List (String × PAttacker)) (tm : Model)
    (rms : Option (List (String × Model))) (cfg : ExperimentConfig)
    (ns : Option Nat) (bs : Nat) (out : MiaOutput)
    (h : get_mia_scores data attackers tm rms cfg ns bs = .ok out) :
    out.samples
      = (data.records.take (ceilDiv (ns.getD data.records.length) bs * bs)).map
          (fun text => if cfg.full_doc then text.slice cfg.max_substrs
                       else Py.list [text]) := by
  obtain ⟨nbs, pq, rq, agg, h1, h2, h3, h4, h5⟩ :=
    get_mia_scores_ok_elim data attackers tm rms cfg ns bs out h
  have hb := batchLoop_samples cfg cfg.neighborhood_config nbs attackers tm
    data.records bs _ _ _ _ h2
  have hr := refPass_samples cfg attackers rms _ _ h3
  have ha := aggLoop_samples _ _ _ _ h4
  have hout : out.samples = agg.2 := by rw [h5]
  rw [hout, ha, hr, hb]
  rw [range_flatMap_slices]
  simp only [List.map_nil, List.nil_append]
  rfl

/-- A concrete loss-echoing attacker over the test fixtures, used by the
pipeline witnesses. -/
def testLossAtk : PAttacker :=
  { state := Attack.init testCfg (testModel 0 2) none none true,
    score := fun _ _ _ kw => .ok (kw.loss.getD 0) }

/-- The output of the concrete one-record witness run. -/
def w1out : MiaOutput :=
  { predictions := [("loss", [2])],
    samples := [Py.list [Py.str "ab"]],
    results := [{ sample := Py.list [Py.str "ab"], detokenized := none,
                  scores := [("loss", [2])] }],
    trace := [.probsEv 0 0, .lossEv 0 0] }

/-- C1 witness: a concrete one-record non-full_doc run returns the whole
record as the single substring of the single sample. -/
theorem pipeline_sample_selection_witness :
    (get_mia_scores { records := [.str "ab"], neighbors := none }
        [("loss", testLossAtk)] (testModel 0 2) none testCfg none 50).map
      MiaOutput.samples = .ok [Py.list [Py.str "ab"]] := by
  have hrun : get_mia_scores { records := [.str "ab"], neighbors := none }
      [("loss", testLossAtk)] (testModel 0 2) none testCfg none 50
      = .ok w1out := rfl
  have hs := pipeline_sample_selection _ _ _ _ _ _ _ _ hrun
  have h2 : (get_mia_scores { records := [.str "ab"], neighbors := none }
      [("loss", testLossAtk)] (testModel 0 2) none testCfg none 50).map
      MiaOutput.samples = .ok w1out.samples := by
    rw [hrun]
    rfl
  rw [h2, hs]
  rfl

/-! ## C5: aggregation is the minimum over per-substring scores -/

/-- The value `np.min` computes on a non-empty list (left fold of `min` over
the tail, starting from the head); 0 on the empty list, on which `np.min`
raises instead. -/
def listMin : List Score → Score
  | [] => 0
  | x :: xs => xs.foldl min x

theorem npMin_ok {l : List Score} {m : Score} (h : npMin l = .ok m) :
    l ≠ [] ∧ m = listMin l := by
  cases l with
  | nil => exact Except.noConfusion h
  | cons x xs =>
    refine ⟨List.cons_ne_nil x xs, ?_⟩
    simp only [npMin, Except.ok.injEq] at h
    rw [← h]
    rfl

theorem foldl_min_le_init : ∀ (xs : List Score) (x : Score), xs.foldl min x ≤ x := by
  intro xs
  induction xs with
  | nil => intro x; simp
  | cons y ys ih =>
    intro x
    simp only [List.foldl_cons]
    exact le_trans (ih (min x y)) (min_le_left x y)

theorem foldl_min_le_mem :
    ∀ (xs : List Score) (x y : Score), y ∈ xs → xs.foldl min x ≤ y := by
  intro xs
  induction xs with
  | nil => intro x y hy; exact absurd hy (List.not_mem_nil y)
  | cons z zs ih =>
    intro x y hy
    simp only [List.foldl_cons]
    rcases List.mem_cons.mp hy with h | h
    · subst h
      exact le_trans (foldl_min_le_init zs (min x y)) (min_le_right x y)
    · exact ih (min x z) y h

theorem foldl_min_mem :
    ∀ (xs : List Score) (x : Score), xs.foldl min x = x ∨ xs.foldl min x ∈ xs := by
  intro xs
  induction xs with
  | nil => intro x; exact Or.inl rfl
  | cons z zs ih =>
    intro x
    simp only [List.foldl_cons]
    rcases ih (min x z) with h | h
    · rcases min_choice x z with hc | hc
      · rw [h, hc]; exact Or.inl rfl
      · rw [h, hc]; exact Or.inr (List.mem_cons_self z zs)
    · exact Or.inr (List.mem_cons_of_mem z h)

/-- `listMin` of a non-empty list is its minimum: it is an element and is
below every element. -/
theorem listMin_spec (x : Score) (xs : List Score) :
    listMin (x :: xs) ∈ x :: xs ∧ ∀ y ∈ x :: xs, listMin (x :: xs) ≤ y := by
  constructor
  · rcases foldl_min_mem xs x with h | h
    · rw [listMin, h]; exact List.mem_cons_self x xs
    · rw [listMin]; exact List.mem_cons_of_mem x h
  · intro y hy
    rcases List.mem_cons.mp hy with h | h
    · rw [listMin, h]; exact foldl_min_le_init xs x
    · exact foldl_min_le_mem xs x y h

theorem assocLookup_append (m : List (String × List Score)) (k k2 : String)
    (v : Score) :
    assocLookup (assocAppend m k v) k2
      = if k = k2 then some ((assocLookup m k).getD [] ++ [v])
        else assocLookup m k2 := by
  induction m with
  | nil =>
    by_cases h : k = k2 <;> simp [assocAppend, assocLookup, h]
  | cons p rest ih =>
    obtain ⟨k1, vs⟩ := p
    by_cases h1 : k1 = k
    · subst h1
      by_cases h2 : k1 = k2 <;> simp [assocAppend, assocLookup, h2]
    · by_cases h2 : k1 = k2
      · subst h2
        have h3 : ¬ k = k1 := fun hh => h1 hh.symm
        simp [assocAppend, assocLookup, h1, h3]
      · simp [assocAppend, assocLookup, h1, h2, ih]

theorem assocAppend_keys (m : List (String × List Score)) (k : String)
    (v : Score) (k2 : String) :
    k2 ∈ (assocAppend m k v).map Prod.fst ↔ k2 ∈ m.map Prod.fst ∨ k2 = k := by
  induction m with
  | nil => simp [assocAppend]
  | cons p rest ih =>
    obtain ⟨k1, vs⟩ := p
    by_cases h1 : k1 = k
    · subst h1
      simp [assocAppend]
      tauto
    · simp only [assocAppend, if_neg h1, List.map_cons, List.mem_cons, ih]
      tauto

theorem aggScores_char :
    ∀ (pairs preds preds' : List (String × List Score)),
      aggScores preds pairs = .ok preds' →
      ∀ k, (assocLookup preds' k).getD []
          = (assocLookup preds k).getD []
            ++ (pairs.filter (fun p => p.1 = k)).map (fun p => listMin p.2) := by
  intro pairs
  induction pairs with
  | nil =>
    intro preds preds' h k
    simp only [aggScores, Except.ok.injEq] at h
    subst h
    simp
  | cons p rest ih =>
    intro preds preds' h k
    obtain ⟨k1, scores⟩ := p
    simp only [aggScores] at h
    obtain ⟨m, hm, h⟩ := exceptBind_ok h
    have hmv := (npMin_ok hm).2
    have hih := ih _ _ h k
    rw [hih, assocLookup_append]
    by_cases hk : k1 = k
    · subst hk
      simp only [if_pos rfl, Option.getD_some, List.filter_cons]
      simp [hmv, List.append_assoc]
    · simp only [if_neg hk, List.filter_cons]
      simp [hk]

theorem aggScores_keys :
    ∀ (pairs preds preds' : List (String × List Score)),
      aggScores preds pairs = .ok preds' →
      ∀ k, (k ∈ preds'.map Prod.fst
        ↔ k ∈ preds.map Prod.fst ∨ ∃ p ∈ pairs, p.1 = k) := by
  intro pairs
  induction pairs with
  | nil =>
    intro preds preds' h k
    simp only [aggScores, Except.ok.injEq] at h
    subst h
    simp
  | cons p rest ih =>
    intro preds preds' h k
    obtain ⟨k1, scores⟩ := p
    simp only [aggScores] at h
    obtain ⟨m, hm, h⟩ := exceptBind_ok h
    rw [ih _ _ h k, assocAppend_keys]
    constructor
    · rintro ((h1 | h1) | h1)
      · exact Or.inl h1
      · exact Or.inr ⟨(k1, scores), List.mem_cons_self _ _, h1.symm⟩
      · obtain ⟨q, hq, hqk⟩ := h1
        exact Or.inr ⟨q, List.mem_cons_of_mem _ hq, hqk⟩
    · rintro (h1 | ⟨q, hq, hqk⟩)
      · exact Or.inl (Or.inl h1)
      · rcases List.mem_cons.mp hq with h2 | h2
        · subst h2
          exact Or.inl (Or.inr hqk.symm)
        · exact Or.inr ⟨q, h2, hqk⟩

theorem aggLoop_char :
    ∀ (results : List SampleInfo) (preds : List (String × List Score))
      (samples : List Py) (out : List (String × List Score) × List Py),
      aggLoop preds samples results = .ok out →
      ∀ k, (assocLookup out.1 k).getD []
          = (assocLookup preds k).getD []
            ++ results.flatMap
                (fun r => (r.scores.filter (fun p => p.1 = k)).map
                  (fun p => listMin p.2)) := by
  intro results
  induction results with
  | nil =>
    intro preds samples out h k
    simp only [aggLoop, Except.ok.injEq] at h
    subst h
    simp
  | cons r rest ih =>
    intro preds samples out h k
    simp only [aggLoop] at h
    obtain ⟨preds1, hp, h⟩ := exceptBind_ok h
    rw [ih _ _ _ h k, aggScores_char _ _ _ hp k, List.flatMap_cons,
      List.append_assoc]

theorem aggLoop_keys :
    ∀ (results : List SampleInfo) (preds : List (String × List Score))
      (samples : List Py) (out : List (String × List Score) × List Py),
      aggLoop preds samples results = .ok out →
      ∀ k, (k ∈ out.1.map Prod.fst
        ↔ k ∈ preds.map Prod.fst ∨ ∃ r ∈ results, ∃ p ∈ r.scores, p.1 = k) := by
  intro results
  induction results with
  | nil =>
    intro preds samples out h k
    simp only [aggLoop, Except.ok.injEq] at h
    subst h
    simp
  | cons r rest ih =>
    intro preds samples out h k
    simp only [aggLoop] at h
    obtain ⟨preds1, hp, h⟩ := exceptBind_ok h
    rw [ih _ _ _ h k, aggScores_keys _ _ _ hp k]
    constructor
    · rintro ((h1 | h1) | h1)
      · exact Or.inl h1
      · exact Or.inr ⟨r, List.mem_cons_self _ _, h1⟩
      · obtain ⟨r1, hr1, hpk⟩ := h1
        exact Or.inr ⟨r1, List.mem_cons_of_mem _ hr1, hpk⟩
    · rintro (h1 | ⟨r1, hr1, hpk⟩)
      · exact Or.inl (Or.inl h1)
      · rcases List.mem_cons.mp hr1 with h2 | h2
        · subst h2
          exact Or.inl (Or.inr hpk)
        · exact Or.inr ⟨r1, h2, hpk⟩

/-- C5: For every successful run, every attack key's entry in the final
predictions is the per-document minimum: reading key `k` of the predictions
gives, in input document order, one value per record that carries `k` (the
raw sample/detokenized fields are not score keys and are never aggregated),
namely `listMin` of that record's ordered per-substring scores — and
`listMin` of a non-empty list is genuinely its minimum, with the lone score
returned exactly for a single-element list; the samples output preserves the
document order of the records. -/
theorem pipeline_aggregation_min (data : MiaData)
    (attackers : List (String × PAttacker)) (tm : Model)
    (rms : Option (List (String × Model))) (cfg : ExperimentConfig)
    (ns : Option Nat) (bs : Nat) (out : MiaOutput)
    (h : get_mia_scores data attackers tm rms cfg ns bs = .ok out) :
    (∀ k, (assocLookup out.predictions k).getD []
        = out.results.flatMap
            (fun r => (r.scores.filter (fun p => p.1 = k)).map
              (fun p => listMin p.2)))
    ∧ out.samples = out.results.map SampleInfo.sample
    ∧ (∀ k, (k ∈ out.predictions.map Prod.fst
        ↔ ∃ r ∈ out.results, ∃ p ∈ r.scores, p.1 = k))
    ∧ (∀ x : Score, listMin [x] = x)
    ∧ (∀ (x : Score) (xs : List Score),
        listMin (x :: xs) ∈ x :: xs ∧ ∀ y ∈ x :: xs, listMin (x :: xs) ≤ y) := by
  obtain ⟨nbs, pq, rq, agg, h1, h2, h3, h4, h5⟩ :=
    get_mia_scores_ok_elim data attackers tm rms cfg ns bs out h
  obtain ⟨a1, a2⟩ := agg
  have hpred : out.predictions = a1 := by rw [h5]
  have hres : out.results = rq.1 := by rw [h5]
  have hsam : out.samples = a2 := by rw [h5]
  refine ⟨?_, ?_, ?_, fun x => rfl, listMin_spec⟩
  · intro k
    have hc := aggLoop_char rq.1 [] [] (a1, a2) h4 k
    rw [hpred, hres]
    simpa using hc
  · have ha := aggLoop_samples rq.1 [] [] (a1, a2) h4
    rw [hsam, hres]
    simpa using ha
  · intro k
    have hk := aggLoop_keys rq.1 [] [] (a1, a2) h4 k
    rw [hpred, hres]
    simpa using hk

/-- A model whose loss is 5 on the text "a" and 3 elsewhere, so that a
two-substring document has a non-trivial minimum. -/
def wMinModel : Model :=
  { id := 0, loaded := false, get_probabilities := fun _ _ => [],
    get_ll := fun t _ _ => match t with
      | .str s => if s = "a" then 5 else 3
      | _ => 0,
    decode := fun p => p }

/-- The test configuration in full-document mode. -/
def testCfgFD : ExperimentConfig := { testCfg with full_doc := true, max_substrs := 5 }

/-- C5 witness: one document with two substrings of losses 5 and 3
aggregates to min = 3 under the loss key. -/
theorem pipeline_aggregation_min_witness :
    (get_mia_scores { records := [.list [.str "a", .str "b"]], neighbors := none }
        [("loss", testLossAtk)] wMinModel none testCfgFD none 50).map
      (fun o => (assocLookup o.predictions "loss").getD []) = .ok [3] := by
  have hrun : get_mia_scores
      { records := [.list [.str "a", .str "b"]], neighbors := none }
      [("loss", testLossAtk)] wMinModel none testCfgFD none 50
      = .ok { predictions := [("loss", [3])],
              samples := [Py.list [Py.str "a", Py.str "b"]],
              results := [{ sample := Py.list [Py.str "a", Py.str "b"],
                            detokenized := none,
                            scores := [("loss", [5, 3])] }],
              trace := [.probsEv 0 0, .lossEv 0 0, .probsEv 0 1, .lossEv 0 1] }
      := by rfl
  have hc := (pipeline_aggregation_min _ _ _ _ _ _ _ _ hrun).1 "loss"
  rw [hrun]
  simp only [Except.map]
  rw [Except.ok.injEq]
  exact hc.trans (by rfl)

/-! ## C7: gating of the neighborhood attack on cache and dump mode -/

theorem assocLookup_none_iff (m : List (String × List Score)) (k : String) :
    assocLookup m k = none ↔ k ∉ m.map Prod.fst := by
  induction m with
  | nil => simp [assocLookup]
  | cons p rest ih =>
    obtain ⟨k1, vs⟩ := p
    by_cases h1 : k1 = k
    · subst h1
      simp [assocLookup]
    · simp only [assocLookup, if_neg h1, List.map_cons, List.mem_cons, ih]
      constructor
      · intro h2 h3
        rcases h3 with h3 | h3
        · exact h1 h3.symm
        · exact h2 h3
      · intro h2 h3
        exact h2 (Or.inr h3)

theorem assocExtend_lookup (m : List (String × List Score)) (k k2 : String)
    (vs : List Score) :
    assocLookup (assocExtend m k vs) k2
      = if k = k2 then some ((assocLookup m k).getD [] ++ vs)
        else assocLookup m k2 := by
  induction m with
  | nil =>
    by_cases h : k = k2 <;> simp [assocExtend, assocLookup, h]
  | cons p rest ih =>
    obtain ⟨k1, vs1⟩ := p
    by_cases h1 : k1 = k
    · subst h1
      by_cases h2 : k1 = k2 <;> simp [assocExtend, assocLookup, h2]
    · by_cases h2 : k1 = k2
      · subst h2
        have h3 : ¬ k = k1 := fun hh => h1 hh.symm
        simp [assocExtend, assocLookup, h1, h3]
      · simp [assocExtend, assocLookup, h1, h2, ih]

/-- When the neighbor cache variable is falsy or dump mode is on, the
neighborhood count loop does nothing at all. -/
theorem neighborLoop_skip (nbs : Option Neighbors) (dump : Bool) (pos i : Nat)
    (substr : Py) (probs : Probs) (detok_i : Option Py) (loss : Score)
    (attack : String) (atk : PAttacker)
    (hg : ¬(neighborsTruthy nbs = true ∧ dump = false)) :
    ∀ (ns : List Nat) (si : SampleInfo) (tr : List PipeEvent),
      neighborLoop nbs dump pos i substr probs detok_i loss attack atk ns si tr
        = .ok (si, tr) := by
  intro ns
  induction ns with
  | nil => intro si tr; rfl
  | cons n ns ih =>
    intro si tr
    simp only [neighborLoop, if_neg hg]
    exact ih si tr

/-- The neighborhood count loop only grows the score table: present keys
stay present. -/
theorem neighborLoop_mono (nbs : Option Neighbors) (dump : Bool) (pos i : Nat)
    (substr : Py) (probs : Probs) (detok_i : Option Py) (loss : Score)
    (attack : String) (atk : PAttacker) :
    ∀ (ns : List Nat) (si : SampleInfo) (tr : List PipeEvent)
      (out : SampleInfo × List PipeEvent),
      neighborLoop nbs dump pos i substr probs detok_i loss attack atk ns si tr
        = .ok out →
      ∀ k, (assocLookup si.scores k).isSome = true →
        (assocLookup out.1.scores k).isSome = true := by
  intro ns
  induction ns with
  | nil =>
    intro si tr out h k hk
    simp only [neighborLoop, Except.ok.injEq] at h
    subst h
    exact hk
  | cons n ns ih =>
    intro si tr out h k hk
    simp only [neighborLoop] at h
    split at h
    · obtain ⟨sn, hnb, h⟩ := exceptBind_ok h
      obtain ⟨sc, hs, h⟩ := exceptBind_ok h
      refine ih _ _ _ h k ?_
      show (assocLookup (assocAppend si.scores _ sc) k).isSome = true
      rw [assocLookup_append]
      split
      · rfl
      · exact hk
    · exact ih _ _ _ h k hk

/-- Keys written by the neighborhood count loop are exactly the
count-suffixed identifiers: any other key's entry is untouched. -/
theorem neighborLoop_frame (nbs : Option Neighbors) (dump : Bool) (pos i : Nat)
    (substr : Py) (probs : Probs) (detok_i : Option Py) (loss : Score)
    (attack : String) (atk : PAttacker) :
    ∀ (ns : List Nat) (si : SampleInfo) (tr : List PipeEvent)
      (out : SampleInfo × List PipeEvent),
      neighborLoop nbs dump pos i substr probs detok_i loss attack atk ns si tr
        = .ok out →
      ∀ k, (∀ n ∈ ns, k ≠ attack ++ "-" ++ toString n) →
        assocLookup out.1.scores k = assocLookup si.scores k := by
  intro ns
  induction ns with
  | nil =>
    intro si tr out h k hk
    simp only [neighborLoop, Except.ok.injEq] at h
    subst h
    rfl
  | cons n ns ih =>
    intro si tr out h k hk
    simp only [neighborLoop] at h
    split at h
    · obtain ⟨sn, hnb, h⟩ := exceptBind_ok h
      obtain ⟨sc, hs, h⟩ := exceptBind_ok h
      have h2 := ih _ _ _ h k (fun n1 hn1 => hk n1 (List.mem_cons_of_mem n hn1))
      rw [h2]
      show assocLookup (assocAppend si.scores _ sc) k = assocLookup si.scores k
      rw [assocLookup_append]
      rw [if_neg]
      exact fun hh => hk n (List.mem_cons_self n ns) hh.symm
    · exact ih _ _ _ h k (fun n1 hn1 => hk n1 (List.mem_cons_of_mem n hn1))

/-- When the cache is truthy and dump mode is off, the count loop appends a
score under every configured count's suffixed key. -/
theorem neighborLoop_writes (nbs : Option Neighbors) (dump : Bool) (pos i : Nat)
    (substr : Py) (probs : Probs) (detok_i : Option Py) (loss : Score)
    (attack : String) (atk : PAttacker)
    (hg : neighborsTruthy nbs = true ∧ dump = false) :
    ∀ (ns : List Nat) (si : SampleInfo) (tr : List PipeEvent)
      (out : SampleInfo × List PipeEvent),
      neighborLoop nbs dump pos i substr probs detok_i loss attack atk ns si tr
        = .ok out →
      ∀ n ∈ ns,
        (assocLookup out.1.scores (attack ++ "-" ++ toString n)).isSome = true := by
  intro ns
  induction ns with
  | nil =>
    intro si tr out h n hn
    exact absurd hn (List.not_mem_nil n)
  | cons n1 ns ih =>
    intro si tr out h n hn
    simp only [neighborLoop, if_pos hg] at h
    obtain ⟨sn, hnb, h⟩ := exceptBind_ok h
    obtain ⟨sc, hs, h⟩ := exceptBind_ok h
    rcases List.mem_cons.mp hn with h1 | h1
    · subst h1
      refine neighborLoop_mono nbs dump pos i substr probs detok_i loss attack
        atk _ _ _ _ h _ ?_
      show (assocLookup (assocAppend si.scores _ sc) _).isSome = true
      rw [assocLookup_append, if_pos rfl]
      rfl
    · exact ih _ _ _ h n h1

/-- The attacker loop only grows the score table. -/
theorem attackerLoop_mono (neighCfg : Option NeighborhoodConfig)
    (nbs : Option Neighbors) (pos i : Nat) (substr : Py) (probs : Probs)
    (detok_i : Option Py) (loss : Score) :
    ∀ (l : List (String × PAttacker)) (si : SampleInfo) (tr : List PipeEvent)
      (out : SampleInfo × List PipeEvent),
      attackerLoop neighCfg nbs pos i substr probs detok_i loss l si tr = .ok out →
      ∀ k, (assocLookup si.scores k).isSome = true →
        (assocLookup out.1.scores k).isSome = true := by
  intro l
  induction l with
  | nil =>
    intro si tr out h k hk
    simp only [attackerLoop, Except.ok.injEq] at h
    subst h
    exact hk
  | cons p rest ih =>
    intro si tr out h k hk
    simp only [attackerLoop] at h
    split at h
    · exact ih _ _ _ h k hk
    · split at h
      · obtain ⟨sc, hs, h⟩ := exceptBind_ok h
        refine ih _ _ _ h k ?_
        show (assocLookup (assocAppend si.scores p.1 sc) k).isSome = true
        rw [assocLookup_append]
        split
        · rfl
        · exact hk
      · split at h
        · exact Except.noConfusion h
        · obtain ⟨q, hq, h⟩ := exceptBind_ok h
          obtain ⟨si1, tr1⟩ := q
          exact ih _ _ _ h k
            (neighborLoop_mono nbs _ pos i substr probs detok_i loss p.1 p.2
              _ _ _ _ hq k hk)

/-- When the neighborhood guard is off, a key that no attacker identifier
matches is untouched by the whole attacker loop. -/
theorem attackerLoop_frame (neighCfg : Option NeighborhoodConfig)
    (nbs : Option Neighbors) (pos i : Nat) (substr : Py) (probs : Probs)
    (detok_i : Option Py) (loss : Score) (K : String)
    (hg : ∀ nc, neighCfg = some nc →
      ¬(neighborsTruthy nbs = true ∧ nc.dump_cache = false)) :
    ∀ (l : List (String × PAttacker)) (si : SampleInfo) (tr : List PipeEvent)
      (out : SampleInfo × List PipeEvent),
      attackerLoop neighCfg nbs pos i substr probs detok_i loss l si tr = .ok out →
      (∀ q ∈ l, q.1 ≠ K) →
      assocLookup out.1.scores K = assocLookup si.scores K := by
  intro l
  induction l with
  | nil =>
    intro si tr out h hk
    simp only [attackerLoop, Except.ok.injEq] at h
    subst h
    rfl
  | cons p rest ih =>
    intro si tr out h hk
    simp only [attackerLoop] at h
    split at h
    · exact ih _ _ _ h (fun q hq => hk q (List.mem_cons_of_mem p hq))
    · split at h
      · obtain ⟨sc, hs, h⟩ := exceptBind_ok h
        rw [ih _ _ _ h (fun q hq => hk q (List.mem_cons_of_mem p hq))]
        show assocLookup (assocAppend si.scores p.1 sc) K = assocLookup si.scores K
        rw [assocLookup_append, if_neg (hk p (List.mem_cons_self p rest))]
      · split at h
        · exact Except.noConfusion h
        · rename_i hnc
          obtain ⟨q, hq, h⟩ := exceptBind_ok h
          obtain ⟨si1, tr1⟩ := q
          rw [neighborLoop_skip nbs _ pos i substr probs detok_i loss p.1 p.2
            (hg _ rfl) _ si tr] at hq
          rw [Except.ok.injEq] at hq
          rw [ih _ _ _ h (fun q1 hq1 => hk q1 (List.mem_cons_of_mem p hq1))]
          rw [← hq]

/-- When the neighborhood guard is on and the neighborhood attack is among
the attackers, every configured count's suffixed key is written. -/
theorem attackerLoop_writes (nc : NeighborhoodConfig) (nbs : Option Neighbors)
    (pos i : Nat) (substr : Py) (probs : Probs) (detok_i : Option Py)
    (loss : Score) (hg : neighborsTruthy nbs = true ∧ nc.dump_cache = false) :
    ∀ (l : List (String × PAttacker)) (si : SampleInfo) (tr : List PipeEvent)
      (out : SampleInfo × List PipeEvent),
      attackerLoop (some nc) nbs pos i substr probs detok_i loss l si tr = .ok out →
      (∃ atk, (AllAttacks.NEIGHBOR.value, atk) ∈ l) →
      ∀ n ∈ nc.n_perturbation_list,
        (assocLookup out.1.scores
          (AllAttacks.NEIGHBOR.value ++ "-" ++ toString n)).isSome = true := by
  intro l
  induction l with
  | nil =>
    rintro si tr out h ⟨atk, hatk⟩ n hn
    exact absurd hatk (List.not_mem_nil _)
  | cons p rest ih =>
    rintro si tr out h ⟨atk, hatk⟩ n hn
    rcases List.mem_cons.mp hatk with hp | hp
    · -- the head is the neighborhood attack
      rw [← hp] at h
      simp only [attackerLoop] at h
      rw [if_neg (by simp [AllAttacks.value, pyStartsWith, List.isPrefixOf])] at h
      rw [if_neg (by simp)] at h
      obtain ⟨q, hq, h⟩ := exceptBind_ok h
      obtain ⟨si1, tr1⟩ := q
      have hw := neighborLoop_writes nbs nc.dump_cache pos i substr probs
        detok_i loss AllAttacks.NEIGHBOR.value atk hg _ _ _ _ hq n hn
      exact attackerLoop_mono (some nc) nbs pos i substr probs detok_i loss
        rest _ _ _ h _ hw
    · -- the neighborhood attack occurs later in the list
      simp only [attackerLoop] at h
      split at h
      · exact ih _ _ _ h ⟨atk, hp⟩ n hn
      · split at h
        · obtain ⟨sc, hs, h⟩ := exceptBind_ok h
          exact ih _ _ _ h ⟨atk, hp⟩ n hn
        · obtain ⟨q, hq, h⟩ := exceptBind_ok h
          obtain ⟨si1, tr1⟩ := q
          exact ih _ _ _ h ⟨atk, hp⟩ n hn

theorem substrLoop_mono (cfg : ExperimentConfig)
    (neighCfg : Option NeighborhoodConfig) (nbs : Option Neighbors)
    (attackers : List (String × PAttacker)) (tm : Model) (pos : Nat)
    (detok : Option (List Py)) :
    ∀ (l : List (Nat × Py)) (si : SampleInfo) (tr : List PipeEvent)
      (out : SampleInfo × List PipeEvent),
      substrLoop cfg neighCfg nbs attackers tm pos detok l si tr = .ok out →
      ∀ k, (assocLookup si.scores k).isSome = true →
        (assocLookup out.1.scores k).isSome = true := by
  intro l
  induction l with
  | nil =>
    intro si tr out h k hk
    simp only [substrLoop, Except.ok.injEq] at h
    subst h
    exact hk
  | cons p rest ih =>
    intro si tr out h k hk
    simp only [substrLoop] at h
    have step : ∀ (tp : Py × Option Py) (di : Option Py) (si1 tr1 : _),
        attackerLoop neighCfg nbs pos p.1 p.2 (tm.get_probabilities tp.1 tp.2)
            di
            (tm.get_ll tp.1 tp.2 (some (tm.get_probabilities tp.1 tp.2))) attackers
            (si.append AllAttacks.LOSS.value
              (tm.get_ll tp.1 tp.2 (some (tm.get_probabilities tp.1 tp.2))))
            (tr ++ [PipeEvent.probsEv pos p.1, PipeEvent.lossEv pos p.1])
          = .ok (si1, tr1) →
        substrLoop cfg neighCfg nbs attackers tm pos detok rest si1 tr1 = .ok out →
        (assocLookup out.1.scores k).isSome = true := by
      intro tp di si1 tr1 ha hrest
      refine ih _ _ _ hrest k ?_
      refine attackerLoop_mono neighCfg nbs pos p.1 p.2 _ _ _ _ _ _ _ ha k ?_
      show (assocLookup (assocAppend si.scores AllAttacks.LOSS.value _) k).isSome
        = true
      rw [assocLookup_append]
      split
      · rfl
      · exact hk
    split at h
    · split at h
      · rw [exceptErrBind] at h
        exact Except.noConfusion h
      · split at h
        · rw [exceptErrBind] at h
          exact Except.noConfusion h
        · rw [exceptOkBind] at h
          obtain ⟨q, hq, h⟩ := exceptBind_ok h
          obtain ⟨si1, tr1⟩ := q
          exact step _ _ _ _ hq h
    · rw [exceptOkBind] at h
      obtain ⟨q, hq, h⟩ := exceptBind_ok h
      obtain ⟨si1, tr1⟩ := q
      exact step _ _ _ _ hq h

theorem substrLoop_frame (cfg : ExperimentConfig)
    (neighCfg : Option NeighborhoodConfig) (nbs : Option Neighbors)
    (attackers : List (String × PAttacker)) (tm : Model) (pos : Nat)
    (detok : Option (List Py)) (K : String)
    (hg : ∀ nc, neighCfg = some nc →
      ¬(neighborsTruthy nbs = true ∧ nc.dump_cache = false))
    (hK1 : K ≠ AllAttacks.LOSS.value)
    (hK2 : ∀ q ∈ attackers, q.1 ≠ K) :
    ∀ (l : List (Nat × Py)) (si : SampleInfo) (tr : List PipeEvent)
      (out : SampleInfo × List PipeEvent),
      substrLoop cfg neighCfg nbs attackers tm pos detok l si tr = .ok out →
      assocLookup out.1.scores K = assocLookup si.scores K := by
  intro l
  induction l with
  | nil =>
    intro si tr out h
    simp only [substrLoop, Except.ok.injEq] at h
    subst h
    rfl
  | cons p rest ih =>
    intro si tr out h
    simp only [substrLoop] at h
    have step : ∀ (tp : Py × Option Py) (di : Option Py) (si1 tr1 : _),
        attackerLoop neighCfg nbs pos p.1 p.2 (tm.get_probabilities tp.1 tp.2)
            di
            (tm.get_ll tp.1 tp.2 (some (tm.get_probabilities tp.1 tp.2))) attackers
            (si.append AllAttacks.LOSS.value
              (tm.get_ll tp.1 tp.2 (some (tm.get_probabilities tp.1 tp.2))))
            (tr ++ [PipeEvent.probsEv pos p.1, PipeEvent.lossEv pos p.1])
          = .ok (si1, tr1) →
        substrLoop cfg neighCfg nbs attackers tm pos detok rest si1 tr1 = .ok out →
        assocLookup out.1.scores K = assocLookup si.scores K := by
      intro tp di si1 tr1 ha hrest
      rw [ih _ _ _ hrest]
      rw [attackerLoop_frame neighCfg nbs pos p.1 p.2 _ _ _ K hg _ _ _ _ ha hK2]
      show assocLookup (assocAppend si.scores AllAttacks.LOSS.value _) K
        = assocLookup si.scores K
      rw [assocLookup_append, if_neg (fun hh => hK1 hh.symm)]
    split at h
    · split at h
      · rw [exceptErrBind] at h
        exact Except.noConfusion h
      · split at h
        · rw [exceptErrBind] at h
          exact Except.noConfusion h
        · rw [exceptOkBind] at h
          obtain ⟨q, hq, h⟩ := exceptBind_ok h
          obtain ⟨si1, tr1⟩ := q
          exact step _ _ _ _ hq h
    · rw [exceptOkBind] at h
      obtain ⟨q, hq, h⟩ := exceptBind_ok h
      obtain ⟨si1, tr1⟩ := q
      exact step _ _ _ _ hq h

theorem substrLoop_writes (cfg : ExperimentConfig) (nc : NeighborhoodConfig)
    (nbs : Option Neighbors) (attackers : List (String × PAttacker)) (tm : Model)
    (pos : Nat) (detok : Option (List Py))
    (hg : neighborsTruthy nbs = true ∧ nc.dump_cache = false)
    (hne : ∃ atk, (AllAttacks.NEIGHBOR.value, atk) ∈ attackers) :
    ∀ (l : List (Nat × Py)) (si : SampleInfo) (tr : List PipeEvent)
      (out : SampleInfo × List PipeEvent),
      substrLoop cfg (some nc) nbs attackers tm pos detok l si tr = .ok out →
      l ≠ [] →
      ∀ n ∈ nc.n_perturbation_list,
        (assocLookup out.1.scores
          (AllAttacks.NEIGHBOR.value ++ "-" ++ toString n)).isSome = true := by
  intro l
  induction l with
  | nil =>
    intro si tr out h hl
    exact absurd rfl hl
  | cons p rest ih =>
    intro si tr out h hl n hn
    simp only [substrLoop] at h
    have step : ∀ (tp : Py × Option Py) (di : Option Py) (si1 tr1 : _),
        attackerLoop (some nc) nbs pos p.1 p.2 (tm.get_probabilities tp.1 tp.2)
            di
            (tm.get_ll tp.1 tp.2 (some (tm.get_probabilities tp.1 tp.2))) attackers
            (si.append AllAttacks.LOSS.value
              (tm.get_ll tp.1 tp.2 (some (tm.get_probabilities tp.1 tp.2))))
            (tr ++ [PipeEvent.probsEv pos p.1, PipeEvent.lossEv pos p.1])
          = .ok (si1, tr1) →
        substrLoop cfg (some nc) nbs attackers tm pos detok rest si1 tr1 = .ok out →
        (assocLookup out.1.scores
          (AllAttacks.NEIGHBOR.value ++ "-" ++ toString n)).isSome = true := by
      intro tp di si1 tr1 ha hrest
      have hw := attackerLoop_writes nc nbs pos p.1 p.2 _ _ _ hg _ _ _ _ ha hne
        n hn
      exact substrLoop_mono cfg (some nc) nbs attackers tm pos detok _ _ _ _
        hrest _ hw
    split at h
    · split at h
      · rw [exceptErrBind] at h
        exact Except.noConfusion h
      · split at h
        · rw [exceptErrBind] at h
          exact Except.noConfusion h
        · rw [exceptOkBind] at h
          obtain ⟨q, hq, h⟩ := exceptBind_ok h
          obtain ⟨si1, tr1⟩ := q
          exact step _ _ _ _ hq h
    · rw [exceptOkBind] at h
      obtain ⟨q, hq, h⟩ := exceptBind_ok h
      obtain ⟨si1, tr1⟩ := q
      exact step _ _ _ _ hq h

theorem enum_ne_nil {α : Type} (l : List α) (h : l ≠ []) : l.enum ≠ [] := by
  cases l with
  | nil => exact absurd rfl h
  | cons x xs => simp [List.enum]

/-- On a document processed with the neighborhood guard OFF, no
count-suffixed key (nor any other non-attacker, non-loss key) is recorded. -/
theorem processDoc_key_absent (cfg : ExperimentConfig)
    (neighCfg : Option NeighborhoodConfig) (nbs : Option Neighbors)
    (attackers : List (String × PAttacker)) (tm : Model) (pos : Nat) (text : Py)
    (K : String)
    (hg : ∀ nc, neighCfg = some nc →
      ¬(neighborsTruthy nbs = true ∧ nc.dump_cache = false))
    (hK1 : K ≠ AllAttacks.LOSS.value)
    (hK2 : ∀ q ∈ attackers, q.1 ≠ K)
    (out : SampleInfo × List PipeEvent)
    (h : processDoc cfg neighCfg nbs attackers tm pos text = .ok out) :
    assocLookup out.1.scores K = none := by
  unfold processDoc at h
  rw [substrLoop_frame cfg neighCfg nbs attackers tm pos _ K hg hK1 hK2
    _ _ _ _ h]
  rfl

/-- On a document with at least one substring processed with the guard ON and
the neighborhood attack present, every configured count's suffixed key is
recorded. -/
theorem processDoc_key_present (cfg : ExperimentConfig) (nc : NeighborhoodConfig)
    (nbs : Option Neighbors) (attackers : List (String × PAttacker)) (tm : Model)
    (pos : Nat) (text : Py)
    (hg : neighborsTruthy nbs = true ∧ nc.dump_cache = false)
    (hne : ∃ atk, (AllAttacks.NEIGHBOR.value, atk) ∈ attackers)
    (out : SampleInfo × List PipeEvent)
    (h : processDoc cfg (some nc) nbs attackers tm pos text = .ok out)
    (hs : (docSample cfg text).elems ≠ []) :
    ∀ n ∈ nc.n_perturbation_list,
      (assocLookup out.1.scores
        (AllAttacks.NEIGHBOR.value ++ "-" ++ toString n)).isSome = true := by
  unfold processDoc at h
  exact substrLoop_writes cfg nc nbs attackers tm pos _ hg hne _ _ _ _ h
    (enum_ne_nil _ hs)

theorem docLoop_forall (cfg : ExperimentConfig)
    (neighCfg : Option NeighborhoodConfig) (nbs : Option Neighbors)
    (attackers : List (String × PAttacker)) (tm : Model) (base : Nat)
    (P : SampleInfo → Prop)
    (hP : ∀ pos text out1,
      processDoc cfg neighCfg nbs attackers tm pos text = .ok out1 → P out1.1) :
    ∀ (l : List (Nat × Py)) (results : List SampleInfo) (tr : List PipeEvent)
      (out : List SampleInfo × List PipeEvent),
      docLoop cfg neighCfg nbs attackers tm base l results tr = .ok out →
      (∀ r ∈ results, P r) → ∀ r ∈ out.1, P r := by
  intro l
  induction l with
  | nil =>
    intro results tr out h hacc r hr
    simp only [docLoop, Except.ok.injEq] at h
    subst h
    exact hacc r hr
  | cons p rest ih =>
    intro results tr out h hacc r hr
    simp only [docLoop] at h
    obtain ⟨q, hq, h⟩ := exceptBind_ok h
    obtain ⟨si, trd⟩ := q
    refine ih _ _ _ h ?_ r hr
    intro r1 hr1
    rcases List.mem_append.mp hr1 with h1 | h1
    · exact hacc r1 h1
    · rw [List.mem_singleton.mp h1]
      exact hP _ _ _ hq

theorem batchLoop_forall (cfg : ExperimentConfig)
    (neighCfg : Option NeighborhoodConfig) (nbs : Option Neighbors)
    (attackers : List (String × PAttacker)) (tm : Model) (records : List Py)
    (bs : Nat) (P : SampleInfo → Prop)
    (hP : ∀ pos text out1,
      processDoc cfg neighCfg nbs attackers tm pos text = .ok out1 → P out1.1) :
    ∀ (bl : List Nat) (results : List SampleInfo) (tr : List PipeEvent)
      (out : List SampleInfo × List PipeEvent),
      batchLoop cfg neighCfg nbs attackers tm records bs bl results tr = .ok out →
      (∀ r ∈ results, P r) → ∀ r ∈ out.1, P r := by
  intro bl
  induction bl with
  | nil =>
    intro results tr out h hacc r hr
    simp only [batchLoop, Except.ok.injEq] at h
    subst h
    exact hacc r hr
  | cons b brest ih =>
    intro results tr out h hacc r hr
    simp only [batchLoop] at h
    obtain ⟨q, hq, h⟩ := exceptBind_ok h
    obtain ⟨results1, tr1⟩ := q
    exact ih _ _ _ h
      (docLoop_forall cfg neighCfg nbs attackers tm _ P hP _ _ _ _ hq hacc) r hr

theorem refDocsLoop_lookupK (cfg : ExperimentConfig) (atk : PAttacker)
    (key K : String) (hkey : key ≠ K) :
    ∀ (l : List (Nat × SampleInfo)) (acc : List SampleInfo) (tr : List PipeEvent)
      (out : List SampleInfo × List PipeEvent),
      refDocsLoop cfg atk key l acc tr = .ok out →
      out.1.map (fun r => (assocLookup r.scores K, r.sample))
        = acc.map (fun r => (assocLookup r.scores K, r.sample))
          ++ l.map (fun p => (assocLookup p.2.scores K, p.2.sample)) := by
  intro l
  induction l with
  | nil =>
    intro acc tr out h
    simp only [refDocsLoop, Except.ok.injEq] at h
    subst h
    simp
  | cons p rest ih =>
    intro acc tr out h
    simp only [refDocsLoop] at h
    obtain ⟨q, hq, h⟩ := exceptBind_ok h
    obtain ⟨scores, tr1⟩ := q
    rw [ih _ _ _ h, List.map_append]
    have hx : assocLookup (p.2.extendKey key scores).scores K
        = assocLookup p.2.scores K := by
      show assocLookup (assocExtend p.2.scores key scores) K
        = assocLookup p.2.scores K
      rw [assocExtend_lookup, if_neg hkey]
    simp [hx, SampleInfo.extendKey_sample]

theorem refModelsLoop_lookupK (cfg : ExperimentConfig)
    (attackers : List (String × PAttacker)) (K : String) :
    ∀ (rms : List (String × Model)) (results : List SampleInfo)
      (tr : List PipeEvent) (out : List SampleInfo × List PipeEvent),
      refModelsLoop cfg attackers rms results tr = .ok out →
      (∀ p ∈ rms, refKeyOf p.1 ≠ K) →
      out.1.map (fun r => (assocLookup r.scores K, r.sample))
        = results.map (fun r => (assocLookup r.scores K, r.sample)) := by
  intro rms
  induction rms with
  | nil =>
    intro results tr out h hkeys
    simp only [refModelsLoop, Except.ok.injEq] at h
    subst h
    rfl
  | cons p rest ih =>
    intro results tr out h hkeys
    simp only [refModelsLoop] at h
    split at h
    · exact ih _ _ _ h (fun q hq => hkeys q (List.mem_cons_of_mem p hq))
    · obtain ⟨q, hq, h⟩ := exceptBind_ok h
      obtain ⟨results1, tr1⟩ := q
      have h1 := refDocsLoop_lookupK cfg _ _ K
        (hkeys p (List.mem_cons_self p rest)) _ _ _ _ hq
      rw [ih _ _ _ h (fun q1 hq1 => hkeys q1 (List.mem_cons_of_mem p hq1))]
      rw [h1]
      simp only [List.map_nil, List.nil_append]
      exact enumMapSnd (fun r => (assocLookup r.scores K, r.sample)) results

theorem refPass_lookupK (cfg : ExperimentConfig)
    (attackers : List (String × PAttacker))
    (rms : Option (List (String × Model))) (results : List SampleInfo)
    (out : List SampleInfo × List PipeEvent) (K : String)
    (h : refPass cfg attackers rms results = .ok out)
    (hkeys : ∀ p ∈ rms.getD [], refKeyOf p.1 ≠ K) :
    out.1.map (fun r => (assocLookup r.scores K, r.sample))
      = results.map (fun r => (assocLookup r.scores K, r.sample)) := by
  unfold refPass at h
  cases rms with
  | none =>
    simp only [Except.ok.injEq] at h
    subst h
    rfl
  | some l => exact refModelsLoop_lookupK cfg attackers K l _ _ _ h hkeys

/-- Transfer of a per-record fact about one key's entry (and the sample)
across the reference pass. -/
theorem refPass_transfer (cfg : ExperimentConfig)
    (attackers : List (String × PAttacker))
    (rms : Option (List (String × Model))) (results : List SampleInfo)
    (out : List SampleInfo × List PipeEvent) (K : String)
    (h : refPass cfg attackers rms results = .ok out)
    (hkeys : ∀ p ∈ rms.getD [], refKeyOf p.1 ≠ K)
    (Q : Option (List Score) → Py → Prop)
    (hall : ∀ r ∈ results, Q (assocLookup r.scores K) r.sample) :
    ∀ r ∈ out.1, Q (assocLookup r.scores K) r.sample := by
  intro r hr
  have hmap := refPass_lookupK cfg attackers rms results out K h hkeys
  have hmem : (assocLookup r.scores K, r.sample)
      ∈ out.1.map (fun r => (assocLookup r.scores K, r.sample)) :=
    List.mem_map_of_mem _ hr
  rw [hmap] at hmem
  obtain ⟨r1, hr1, heq⟩ := List.mem_map.mp hmem
  have h1 : assocLookup r1.scores K = assocLookup r.scores K :=
    congrArg Prod.fst heq
  have h2 : r1.sample = r.sample := congrArg Prod.snd heq
  rw [← h1, ← h2]
  exact hall r1 hr1

/-- Characterization of the `neighbors` variable when the neighborhood
attack is configured. -/
theorem neighborsInit_char (cfg : ExperimentConfig)
    (attackers : List (String × PAttacker)) (data : MiaData)
    (nc : NeighborhoodConfig) (nbs : Option Neighbors)
    (hne : attackers.any (fun p => p.1 = AllAttacks.NEIGHBOR.value) = true)
    (hcfg : cfg.neighborhood_config = some nc)
    (h : neighborsInit cfg attackers data = .ok nbs) :
    (nc.load_from_cache = true → nbs = data.neighbors ∧ data.neighbors ≠ none)
    ∧ (nc.load_from_cache = false → nbs = none) := by
  unfold neighborsInit at h
  rw [if_pos hne] at h
  simp only [hcfg] at h
  split at h
  · rename_i hl
    split at h
    · exact Except.noConfusion h
    · rename_i nb hd
      rw [Except.ok.injEq] at h
      refine ⟨fun _ => ⟨by rw [← h, hd], by simp [hd]⟩, fun hc => ?_⟩
      exact absurd (hl.symm.trans hc) (by decide)
  · rename_i hl
    rw [Except.ok.injEq] at h
    refine ⟨fun hc => absurd hc hl, fun _ => h.symm⟩

theorem assocLookup_isSome_mem (m : List (String × List Score)) (k : String)
    (h : (assocLookup m k).isSome = true) : k ∈ m.map Prod.fst := by
  by_contra hc
  rw [(assocLookup_none_iff m k).mpr hc] at h
  exact Bool.noConfusion h

/-- C7: For a run with the neighborhood attack among the attackers and a
neighborhood configuration, and count-suffixed identifiers fresh (they
collide with no attacker key, with the loss key, nor with any reference key):
when the cache was loaded and is non-empty and dump mode is off, every
document with at least one substring gets a score appended under every
configured count's suffixed key, and those keys appear in the final
predictions; when the cache is absent/empty or dump mode is on, no score is
recorded for any configured count on any document — a silent skip — and the
count-suffixed keys are entirely absent from the predictions (absence, not
zero). -/
theorem pipeline_neighborhood_gating (data : MiaData)
    (attackers : List (String × PAttacker)) (tm : Model)
    (rms : Option (List (String × Model))) (cfg : ExperimentConfig)
    (ns : Option Nat) (bs : Nat) (out : MiaOutput) (nc : NeighborhoodConfig)
    (atk : PAttacker)
    (h : get_mia_scores data attackers tm rms cfg ns bs = .ok out)
    (hne : (AllAttacks.NEIGHBOR.value, atk) ∈ attackers)
    (hcfg : cfg.neighborhood_config = some nc)
    (hfresh : ∀ n ∈ nc.n_perturbation_list,
      (AllAttacks.NEIGHBOR.value ++ "-" ++ toString n) ≠ AllAttacks.LOSS.value
      ∧ (∀ q ∈ attackers, q.1 ≠ AllAttacks.NEIGHBOR.value ++ "-" ++ toString n)
      ∧ (∀ p ∈ rms.getD [],
          refKeyOf p.1 ≠ AllAttacks.NEIGHBOR.value ++ "-" ++ toString n)) :
    ((nc.load_from_cache = true ∧ data.neighbors.getD [] ≠ []
        ∧ nc.dump_cache = false) →
      ∀ n ∈ nc.n_perturbation_list,
        (∀ r ∈ out.results, r.sample.elems ≠ [] →
          (AllAttacks.NEIGHBOR.value ++ "-" ++ toString n) ∈ r.scores.map Prod.fst)
        ∧ ((∃ r ∈ out.results, r.sample.elems ≠ []) →
          (AllAttacks.NEIGHBOR.value ++ "-" ++ toString n)
            ∈ out.predictions.map Prod.fst))
    ∧ ((nc.load_from_cache = false ∨ data.neighbors.getD [] = []
        ∨ nc.dump_cache = true) →
      ∀ n ∈ nc.n_perturbation_list,
        (∀ r ∈ out.results,
          (AllAttacks.NEIGHBOR.value ++ "-" ++ toString n) ∉ r.scores.map Prod.fst)
        ∧ (AllAttacks.NEIGHBOR.value ++ "-" ++ toString n)
            ∉ out.predictions.map Prod.fst) := by
  obtain ⟨nbs, pq, rq, agg, h1, h2, h3, h4, h5⟩ :=
    get_mia_scores_ok_elim data attackers tm rms cfg ns bs out h
  have hany : attackers.any (fun p => p.1 = AllAttacks.NEIGHBOR.value) = true :=
    List.any_eq_true.mpr ⟨(AllAttacks.NEIGHBOR.value, atk), hne, by simp⟩
  have hchar := neighborsInit_char cfg attackers data nc nbs hany hcfg h1
  rw [hcfg] at h2
  have hresmap : out.results = rq.1 := by rw [h5]
  have hpreds : out.predictions = agg.1 := by rw [h5]
  have h4a : aggLoop [] [] rq.1 = .ok agg := h4
  constructor
  · rintro ⟨hl, hnb, hd⟩ n hn
    obtain ⟨hnbs, hnn⟩ := hchar.1 hl
    have htruthy : neighborsTruthy nbs = true := by
      rw [hnbs]
      cases hdn : data.neighbors with
      | none => exact absurd hdn hnn
      | some nb =>
        rw [hdn] at hnb
        cases nb with
        | nil => exact absurd rfl hnb
        | cons x xs => rfl
    have hg : neighborsTruthy nbs = true ∧ nc.dump_cache = false := ⟨htruthy, hd⟩
    have hP := batchLoop_forall cfg (some nc) nbs attackers tm data.records bs
      (fun r => r.sample.elems ≠ [] →
        (assocLookup r.scores
          (AllAttacks.NEIGHBOR.value ++ "-" ++ toString n)).isSome = true)
      (by
        intro pos text out1 hpd hs1
        have hshape := (processDoc_shape cfg (some nc) nbs attackers tm pos
          text out1 hpd).1
        rw [hshape] at hs1
        exact processDoc_key_present cfg nc nbs attackers tm pos text hg
          ⟨atk, hne⟩ out1 hpd hs1 n hn)
      _ _ _ _ h2 (fun r hr => absurd hr (List.not_mem_nil r))
    have hQ := refPass_transfer cfg attackers rms pq.1 rq
      (AllAttacks.NEIGHBOR.value ++ "-" ++ toString n) h3 (hfresh n hn).2.2
      (fun o s => s.elems ≠ [] → o.isSome = true) hP
    constructor
    · intro r hr hs
      refine assocLookup_isSome_mem _ _ ?_
      exact hQ r (hresmap ▸ hr) hs
    · rintro ⟨r, hr, hs⟩
      have hsome := hQ r (hresmap ▸ hr) hs
      have hkmem := assocLookup_isSome_mem _ _ hsome
      obtain ⟨p, hp, hpk⟩ := List.mem_map.mp hkmem
      rw [hpreds]
      refine (aggLoop_keys rq.1 [] [] agg h4a _).mpr ?_
      exact Or.inr ⟨r, hresmap ▸ hr, p, hp, hpk⟩
  · intro hB n hn
    have hgneg : ¬(neighborsTruthy nbs = true ∧ nc.dump_cache = false) := by
      rintro ⟨ht, hdf⟩
      rcases hB with hl | hnb | hd
      · rw [hchar.2 hl] at ht
        exact Bool.noConfusion ht
      · cases hload : nc.load_from_cache with
        | false =>
          rw [hchar.2 hload] at ht
          exact Bool.noConfusion ht
        | true =>
          obtain ⟨hnbs, hnn⟩ := hchar.1 hload
          rw [hnbs] at ht
          cases hdn : data.neighbors with
          | none => exact absurd hdn hnn
          | some nb =>
            rw [hdn] at ht hnb
            cases nb with
            | nil => exact Bool.noConfusion ht
            | cons x xs => simp at hnb
      · rw [hd] at hdf
        exact Bool.noConfusion hdf
    have hgAll : ∀ nc1, (some nc : Option NeighborhoodConfig) = some nc1 →
        ¬(neighborsTruthy nbs = true ∧ nc1.dump_cache = false) := by
      intro nc1 hh
      injection hh with hh
      rw [← hh]
      exact hgneg
    have hP := batchLoop_forall cfg (some nc) nbs attackers tm data.records bs
      (fun r => assocLookup r.scores
        (AllAttacks.NEIGHBOR.value ++ "-" ++ toString n) = none)
      (by
        intro pos text out1 hpd
        exact processDoc_key_absent cfg (some nc) nbs attackers tm pos text
          _ hgAll (hfresh n hn).1 (hfresh n hn).2.1 out1 hpd)
      _ _ _ _ h2 (fun r hr => absurd hr (List.not_mem_nil r))
    have hQ := refPass_transfer cfg attackers rms pq.1 rq
      (AllAttacks.NEIGHBOR.value ++ "-" ++ toString n) h3 (hfresh n hn).2.2
      (fun o _ => o = none) hP
    constructor
    · intro r hr
      exact (assocLookup_none_iff _ _).mp (hQ r (hresmap ▸ hr))
    · intro hmem
      rw [hpreds] at hmem
      have := (aggLoop_keys rq.1 [] [] agg h4a _).mp hmem
      rcases this with hfalse | ⟨r, hr, p, hp, hpk⟩
      · simp at hfalse
      · have hnone := hQ r hr
        have : (AllAttacks.NEIGHBOR.value ++ "-" ++ toString n)
            ∈ r.scores.map Prod.fst := List.mem_map.mpr ⟨p, hp, hpk⟩
        exact (assocLookup_none_iff _ _).mp hnone this

/-- A neighborhood sub-configuration in cache-load mode with one count. -/
def testNeCfgSub : NeighborhoodConfig :=
  { n_perturbation_list := [5], load_from_cache := true,
    dump_cache := false, original_tokenization_swap := false }

/-- Test configuration with the neighborhood attack enabled in cache-load
mode and one perturbation count. -/
def testCfgNe : ExperimentConfig :=
  { pretokenized := false, full_doc := false, max_substrs := 1,
    blackbox_attacks := ["loss", "ne"],
    neighborhood_config := some testNeCfgSub, random_seed := 0 }

/-- A neighborhood attacker whose score counts the supplied neighbors. -/
def testNeAtk : PAttacker :=
  { state := Attack.init testCfgNe (testModel 0 2) none none true,
    score := fun _ _ _ kw => .ok ((kw.substr_neighbors.getD []).length : Score) }

/-- One record with a one-entry neighbor cache for count 5. -/
def w7data : MiaData :=
  { records := [.str "ab"], neighbors := some [(5, [[[.str "n1"]]])] }

/-- The output of the concrete neighborhood witness run. -/
def w7out : MiaOutput :=
  { predictions := [("loss", [2]), ("ne-5", [1])],
    samples := [Py.list [Py.str "ab"]],
    results := [{ sample := Py.list [Py.str "ab"], detokenized := none,
                  scores := [("loss", [2]), ("ne-5", [1])] }],
    trace := [.probsEv 0 0, .lossEv 0 0, .attackEv "ne-5" 0 0] }

/-- C7 witness: cache present, dump off, one count `5` — the pipeline
records a score under "ne-5" and the key appears in the predictions. -/
theorem pipeline_neighborhood_gating_witness :
    get_mia_scores w7data [("loss", testLossAtk), ("ne", testNeAtk)]
      (testModel 0 2) none testCfgNe none 50 = .ok w7out
    ∧ (AllAttacks.NEIGHBOR.value ++ "-" ++ toString 5)
        ∈ w7out.predictions.map Prod.fst := by
  have hrun : get_mia_scores w7data [("loss", testLossAtk), ("ne", testNeAtk)]
      (testModel 0 2) none testCfgNe none 50 = .ok w7out := rfl
  refine ⟨hrun, ?_⟩
  have hfresh : ∀ n ∈ ([5] : List Nat),
      (AllAttacks.NEIGHBOR.value ++ "-" ++ toString n) ≠ AllAttacks.LOSS.value
      ∧ (∀ q ∈ [("loss", testLossAtk), ("ne", testNeAtk)],
          q.1 ≠ AllAttacks.NEIGHBOR.value ++ "-" ++ toString n)
      ∧ (∀ p ∈ (none : Option (List (String × Model))).getD [],
          refKeyOf p.1 ≠ AllAttacks.NEIGHBOR.value ++ "-" ++ toString n) := by
    intro n hn
    have hn5 : n = 5 := List.mem_singleton.mp hn
    subst hn5
    refine ⟨by decide, ?_, fun p hp => absurd hp (List.not_mem_nil p)⟩
    intro q hq
    rcases List.mem_cons.mp hq with h1 | h1
    · rw [h1]
      decide
    · rcases List.mem_cons.mp h1 with h2 | h2
      · rw [h2]
        decide
      · exact absurd h2 (List.not_mem_nil q)
  have hg := pipeline_neighborhood_gating w7data
    [("loss", testLossAtk), ("ne", testNeAtk)] (testModel 0 2) none testCfgNe
    none 50 w7out testNeCfgSub testNeAtk hrun
    (List.mem_cons_of_mem _ (List.mem_cons_self _ _)) rfl hfresh
  have hc := (hg.1 ⟨rfl, by simp [w7data], rfl⟩ 5 (List.mem_cons_self 5 [])).2
  exact hc ⟨_, List.mem_cons_self _ _, List.cons_ne_nil _ _⟩

/-! ## C8: the deferred reference pass -/

/-- Events emitted by the primary pass (probability/loss computations and
non-reference attack invocations). -/
def isPrimaryEv : PipeEvent → Bool
  | .probsEv _ _ => true
  | .lossEv _ _ => true
  | .attackEv _ _ _ => true
  | .refEv _ _ _ _ => false
  | .unloadEv _ => false

/-- The event trace the reference pass is specified to produce, given the
substring counts of the records: one block per configured reference model
whose key has an attacker — all records' per-substring scoring events (with
`probs = None`), then that strategy's unload — in reference-model order. -/
def refTraceSpec (attackers : List (String × PAttacker))
    (rms : List (String × Model)) (lens : List Nat) : List PipeEvent :=
  rms.flatMap (fun p =>
    match assocLookup attackers (refKeyOf p.1) with
    | none => []
    | some _ =>
      (lens.enum.flatMap (fun q =>
        (List.range q.2).map (fun i => PipeEvent.refEv (refKeyOf p.1) q.1 i none)))
      ++ [PipeEvent.unloadEv (refKeyOf p.1)])

/-- The reference scores of one record as the spec words them
(non-pretokenized case): for each substring, the attack entrypoint applied to
the sample text with `probs = None` and the record's stored per-substring
loss. -/
def refScoresSpec (atk : PAttacker) (r : SampleInfo) :
    Except String (List Score) :=
  r.sample.elems.enum.mapM (fun p => do
    let lo : Score ←
      match ((assocLookup r.scores AllAttacks.LOSS.value).getD [])[p.1]? with
      | none => Except.error "IndexError: loss"
      | some x => Except.ok x
    (Attack.attack atk.score atk.state p.2 none
      { detokenized_sample := none, loss := some lo,
        batch_size := none, substr_neighbors := none }).2)

theorem flatMap_map_general {α β γ : Type} (l : List α) (f : α → β)
    (g : β → List γ) : (l.map f).flatMap g = l.flatMap (fun a => g (f a)) := by
  induction l with
  | nil => rfl
  | cons x xs ih => simp only [List.map_cons, List.flatMap_cons, ih]

theorem enumMapFst {α β : Type} (f : Nat → β) (l : List α) :
    l.enum.map (fun p => f p.1) = (List.range l.length).map f := by
  have h4 : (l.enum.map Prod.fst).map f = l.enum.map (fun p => f p.1) := by
    rw [List.map_map]
    rfl
  rw [← h4, List.enum_map_fst]

theorem refScoresLoop_trace (cfg : ExperimentConfig) (atk : PAttacker)
    (d : Nat) (key : String) (detok : Option (List Py)) (losses : List Score) :
    ∀ (l : List (Nat × Py)) (scores : List Score) (tr : List PipeEvent)
      (out : List Score × List PipeEvent),
      refScoresLoop cfg atk d key detok losses l scores tr = .ok out →
      out.2 = tr ++ l.map (fun q => PipeEvent.refEv key d q.1 none) := by
  intro l
  induction l with
  | nil =>
    intro scores tr out h
    simp only [refScoresLoop, Except.ok.injEq] at h
    subst h
    simp
  | cons p rest ih =>
    intro scores tr out h
    simp only [refScoresLoop] at h
    split at h
    · split at h
      · rw [exceptErrBind] at h
        exact Except.noConfusion h
      · split at h
        · rw [exceptErrBind] at h
          exact Except.noConfusion h
        · rw [exceptOkBind] at h
          split at h
          · rw [exceptErrBind] at h
            exact Except.noConfusion h
          · rw [exceptOkBind] at h
            obtain ⟨sc, hsc, h⟩ := exceptBind_ok h
            rw [ih _ _ _ h]
            simp
    · rw [exceptOkBind] at h
      split at h
      · rw [exceptErrBind] at h
        exact Except.noConfusion h
      · rw [exceptOkBind] at h
        obtain ⟨sc, hsc, h⟩ := exceptBind_ok h
        rw [ih _ _ _ h]
        simp

theorem refDocsLoop_trace (cfg : ExperimentConfig) (atk : PAttacker)
    (key : String) :
    ∀ (l : List (Nat × SampleInfo)) (acc : List SampleInfo)
      (tr : List PipeEvent) (out : List SampleInfo × List PipeEvent),
      refDocsLoop cfg atk key l acc tr = .ok out →
      out.2 = tr ++ l.flatMap (fun q =>
        (List.range q.2.sample.elems.length).map
          (fun i => PipeEvent.refEv key q.1 i none)) := by
  intro l
  induction l with
  | nil =>
    intro acc tr out h
    simp only [refDocsLoop, Except.ok.injEq] at h
    subst h
    simp
  | cons p rest ih =>
    intro acc tr out h
    simp only [refDocsLoop] at h
    obtain ⟨q, hq, h⟩ := exceptBind_ok h
    obtain ⟨scores, tr1⟩ := q
    have h1 := refScoresLoop_trace cfg atk p.1 key p.2.detokenized _ _ _ _ _ hq
    have h2 : (p.2.sample.elems.enum).map
        (fun q => PipeEvent.refEv key p.1 q.1 none)
        = (List.range p.2.sample.elems.length).map
            (fun i => PipeEvent.refEv key p.1 i none) :=
      enumMapFst (fun i => PipeEvent.refEv key p.1 i none) p.2.sample.elems
    rw [ih _ _ _ h, h1, h2, List.flatMap_cons, List.append_assoc]

theorem refModelsLoop_trace (cfg : ExperimentConfig)
    (attackers : List (String × PAttacker)) :
    ∀ (rms : List (String × Model)) (results : List SampleInfo)
      (tr : List PipeEvent) (out : List SampleInfo × List PipeEvent),
      refModelsLoop cfg attackers rms results tr = .ok out →
      out.2 = tr ++ refTraceSpec attackers rms
        (results.map (fun r => r.sample.elems.length)) := by
  intro rms
  induction rms with
  | nil =>
    intro results tr out h
    simp only [refModelsLoop, Except.ok.injEq] at h
    subst h
    simp [refTraceSpec]
  | cons p rest ih =>
    intro results tr out h
    simp only [refModelsLoop] at h
    split at h
    · rename_i hlook
      rw [ih _ _ _ h]
      simp only [refTraceSpec, List.flatMap_cons, hlook]
      simp [refTraceSpec]
    · rename_i atk hlook
      obtain ⟨q, hq, h⟩ := exceptBind_ok h
      obtain ⟨results1, tr1⟩ := q
      have htr1 := refDocsLoop_trace cfg atk (refKeyOf p.1) _ _ _ _ hq
      have hsam : results1.map SampleInfo.sample = results.map SampleInfo.sample := by
        have h3 := refDocsLoop_samples cfg atk (refKeyOf p.1) _ _ _ _ hq
        rw [h3]
        simp only [List.map_nil, List.nil_append]
        exact enumMapSnd SampleInfo.sample results
      have hlens : results1.map (fun r => r.sample.elems.length)
          = results.map (fun r => r.sample.elems.length) := by
        have e1 : results1.map (fun r => r.sample.elems.length)
            = (results1.map SampleInfo.sample).map (fun s => s.elems.length) := by
          rw [List.map_map]
          rfl
        have e2 : results.map (fun r => r.sample.elems.length)
            = (results.map SampleInfo.sample).map (fun s => s.elems.length) := by
          rw [List.map_map]
          rfl
        rw [e1, e2, hsam]
      have henumblock : (results.enum).flatMap (fun q =>
          (List.range q.2.sample.elems.length).map
            (fun i => PipeEvent.refEv (refKeyOf p.1) q.1 i none))
          = ((results.map (fun r => r.sample.elems.length)).enum).flatMap
              (fun q => (List.range q.2).map
                (fun i => PipeEvent.refEv (refKeyOf p.1) q.1 i none)) := by
        rw [List.enum_map, flatMap_map_general]
        rfl
      rw [ih _ _ _ h, hlens, htr1]
      simp only [refTraceSpec, List.flatMap_cons, hlook]
      rw [henumblock]
      simp [List.append_assoc]

theorem neighborLoop_events (nbs : Option Neighbors) (dump : Bool) (pos i : Nat)
    (substr : Py) (probs : Probs) (detok_i : Option Py) (loss : Score)
    (attack : String) (atk : PAttacker) :
    ∀ (ns : List Nat) (si : SampleInfo) (tr : List PipeEvent)
      (out : SampleInfo × List PipeEvent),
      neighborLoop nbs dump pos i substr probs detok_i loss attack atk ns si tr
        = .ok out →
      (∀ e ∈ tr, isPrimaryEv e = true) → ∀ e ∈ out.2, isPrimaryEv e = true := by
  intro ns
  induction ns with
  | nil =>
    intro si tr out h htr e he
    simp only [neighborLoop, Except.ok.injEq] at h
    subst h
    exact htr e he
  | cons n ns ih =>
    intro si tr out h htr e he
    simp only [neighborLoop] at h
    split at h
    · obtain ⟨sn, hnb, h⟩ := exceptBind_ok h
      obtain ⟨sc, hs, h⟩ := exceptBind_ok h
      refine ih _ _ _ h ?_ e he
      intro e1 he1
      rcases List.mem_append.mp he1 with h1 | h1
      · exact htr e1 h1
      · rw [List.mem_singleton.mp h1]
        rfl
    · exact ih _ _ _ h htr e he

theorem attackerLoop_events (neighCfg : Option NeighborhoodConfig)
    (nbs : Option Neighbors) (pos i : Nat) (substr : Py) (probs : Probs)
    (detok_i : Option Py) (loss : Score) :
    ∀ (l : List (String × PAttacker)) (si : SampleInfo) (tr : List PipeEvent)
      (out : SampleInfo × List PipeEvent),
      attackerLoop neighCfg nbs pos i substr probs detok_i loss l si tr = .ok out →
      (∀ e ∈ tr, isPrimaryEv e = true) → ∀ e ∈ out.2, isPrimaryEv e = true := by
  intro l
  induction l with
  | nil =>
    intro si tr out h htr e he
    simp only [attackerLoop, Except.ok.injEq] at h
    subst h
    exact htr e he
  | cons p rest ih =>
    intro si tr out h htr e he
    simp only [attackerLoop] at h
    split at h
    · exact ih _ _ _ h htr e he
    · split at h
      · obtain ⟨sc, hs, h⟩ := exceptBind_ok h
        refine ih _ _ _ h ?_ e he
        intro e1 he1
        rcases List.mem_append.mp he1 with h1 | h1
        · exact htr e1 h1
        · rw [List.mem_singleton.mp h1]
          rfl
      · split at h
        · exact Except.noConfusion h
        · obtain ⟨q, hq, h⟩ := exceptBind_ok h
          obtain ⟨si1, tr1⟩ := q
          exact ih _ _ _ h
            (neighborLoop_events nbs _ pos i substr probs detok_i loss p.1 p.2
              _ _ _ _ hq htr) e he

theorem substrLoop_events (cfg : ExperimentConfig)
    (neighCfg : Option NeighborhoodConfig) (nbs : Option Neighbors)
    (attackers : List (String × PAttacker)) (tm : Model) (pos : Nat)
    (detok : Option (List Py)) :
    ∀ (l : List (Nat × Py)) (si : SampleInfo) (tr : List PipeEvent)
      (out : SampleInfo × List PipeEvent),
      substrLoop cfg neighCfg nbs attackers tm pos detok l si tr = .ok out →
      (∀ e ∈ tr, isPrimaryEv e = true) → ∀ e ∈ out.2, isPrimaryEv e = true := by
  intro l
  induction l with
  | nil =>
    intro si tr out h htr e he
    simp only [substrLoop, Except.ok.injEq] at h
    subst h
    exact htr e he
  | cons p rest ih =>
    intro si tr out h htr e he
    simp only [substrLoop] at h
    have htr2 : ∀ e1 ∈ tr ++ [PipeEvent.probsEv pos p.1, PipeEvent.lossEv pos p.1],
        isPrimaryEv e1 = true := by
      intro e1 he1
      rcases List.mem_append.mp he1 with h1 | h1
      · exact htr e1 h1
      · rcases List.mem_cons.mp h1 with h2 | h2
        · rw [h2]; rfl
        · rw [List.mem_singleton.mp h2]; rfl
    have step : ∀ (tp : Py × Option Py) (di : Option Py) (si1 tr1 : _),
        attackerLoop neighCfg nbs pos p.1 p.2 (tm.get_probabilities tp.1 tp.2)
            di
            (tm.get_ll tp.1 tp.2 (some (tm.get_probabilities tp.1 tp.2))) attackers
            (si.append AllAttacks.LOSS.value
              (tm.get_ll tp.1 tp.2 (some (tm.get_probabilities tp.1 tp.2))))
            (tr ++ [PipeEvent.probsEv pos p.1, PipeEvent.lossEv pos p.1])
          = .ok (si1, tr1) →
        substrLoop cfg neighCfg nbs attackers tm pos detok rest si1 tr1 = .ok out →
        isPrimaryEv e = true := by
      intro tp di si1 tr1 ha hrest
      exact ih _ _ _ hrest
        (attackerLoop_events neighCfg nbs pos p.1 p.2 _ _ _ _ _ _ _ ha htr2) e he
    split at h
    · split at h
      · rw [exceptErrBind] at h
        exact Except.noConfusion h
      · split at h
        · rw [exceptErrBind] at h
          exact Except.noConfusion h
        · rw [exceptOkBind] at h
          obtain ⟨q, hq, h⟩ := exceptBind_ok h
          obtain ⟨si1, tr1⟩ := q
          exact step _ _ _ _ hq h
    · rw [exceptOkBind] at h
      obtain ⟨q, hq, h⟩ := exceptBind_ok h
      obtain ⟨si1, tr1⟩ := q
      exact step _ _ _ _ hq h

theorem processDoc_events (cfg : ExperimentConfig)
    (neighCfg : Option NeighborhoodConfig) (nbs : Option Neighbors)
    (attackers : List (String × PAttacker)) (tm : Model) (pos : Nat) (text : Py)
    (out : SampleInfo × List PipeEvent)
    (h : processDoc cfg neighCfg nbs attackers tm pos text = .ok out) :
    ∀ e ∈ out.2, isPrimaryEv e = true := by
  unfold processDoc at h
  exact substrLoop_events cfg neighCfg nbs attackers tm pos _ _ _ _ _ h
    (fun e he => absurd he (List.not_mem_nil e))

theorem docLoop_events (cfg : ExperimentConfig)
    (neighCfg : Option NeighborhoodConfig) (nbs : Option Neighbors)
    (attackers : List (String × PAttacker)) (tm : Model) (base : Nat) :
    ∀ (l : List (Nat × Py)) (results : List SampleInfo) (tr : List PipeEvent)
      (out : List SampleInfo × List PipeEvent),
      docLoop cfg neighCfg nbs attackers tm base l results tr = .ok out →
      (∀ e ∈ tr, isPrimaryEv e = true) → ∀ e ∈ out.2, isPrimaryEv e = true := by
  intro l
  induction l with
  | nil =>
    intro results tr out h htr e he
    simp only [docLoop, Except.ok.injEq] at h
    subst h
    exact htr e he
  | cons p rest ih =>
    intro results tr out h htr e he
    simp only [docLoop] at h
    obtain ⟨q, hq, h⟩ := exceptBind_ok h
    obtain ⟨si, trd⟩ := q
    refine ih _ _ _ h ?_ e he
    intro e1 he1
    rcases List.mem_append.mp he1 with h1 | h1
    · exact htr e1 h1
    · exact processDoc_events cfg neighCfg nbs attackers tm _ _ _ hq e1 h1

theorem batchLoop_events (cfg : ExperimentConfig)
    (neighCfg : Option NeighborhoodConfig) (nbs : Option Neighbors)
    (attackers : List (String × PAttacker)) (tm : Model) (records : List Py)
    (bs : Nat) :
    ∀ (bl : List Nat) (results : List SampleInfo) (tr : List PipeEvent)
      (out : List SampleInfo × List PipeEvent),
      batchLoop cfg neighCfg nbs attackers tm records bs bl results tr = .ok out →
      (∀ e ∈ tr, isPrimaryEv e = true) → ∀ e ∈ out.2, isPrimaryEv e = true := by
  intro bl
  induction bl with
  | nil =>
    intro results tr out h htr e he
    simp only [batchLoop, Except.ok.injEq] at h
    subst h
    exact htr e he
  | cons b brest ih =>
    intro results tr out h htr e he
    simp only [batchLoop] at h
    obtain ⟨q, hq, h⟩ := exceptBind_ok h
    obtain ⟨results1, tr1⟩ := q
    exact ih _ _ _ h
      (docLoop_events cfg neighCfg nbs attackers tm _ _ _ _ _ hq htr) e he

/-- Every reference-scoring event of the reference-pass trace passes
`probs = None`. -/
theorem refTraceSpec_refEv (attackers : List (String × PAttacker))
    (rms : List (String × Model)) (lens : List Nat) (key : String) (d i : Nat)
    (pArg : Option Probs)
    (hmem : PipeEvent.refEv key d i pArg ∈ refTraceSpec attackers rms lens) :
    pArg = none := by
  unfold refTraceSpec at hmem
  rw [List.mem_flatMap] at hmem
  obtain ⟨p, hp, hmem⟩ := hmem
  cases hl : assocLookup attackers (refKeyOf p.1) with
  | none =>
    rw [hl] at hmem
    exact absurd hmem (List.not_mem_nil _)
  | some atk =>
    rw [hl] at hmem
    rcases List.mem_append.mp hmem with h1 | h1
    · rw [List.mem_flatMap] at h1
      obtain ⟨q, hq, h1⟩ := h1
      obtain ⟨j, hj, he⟩ := List.mem_map.mp h1
      exact (PipeEvent.refEv.injEq _ _ _ _ _ _ _ _).mp he.symm |>.2.2.2
    · exact PipeEvent.noConfusion (List.mem_singleton.mp h1)

theorem mapM_cons_ok {α β : Type} (f : α → Except String β) (a : α)
    (as : List α) (b : β) (bs : List β) (h1 : f a = .ok b)
    (h2 : as.mapM f = .ok bs) : (a :: as).mapM f = .ok (b :: bs) := by
  rw [List.mapM_cons, h1, exceptOkBind, h2, exceptOkBind]
  rfl

theorem refScoresLoop_spec (cfg : ExperimentConfig) (atk : PAttacker)
    (d : Nat) (key : String) (detok : Option (List Py)) (losses : List Score)
    (hpre : cfg.pretokenized = false) :
    ∀ (l : List (Nat × Py)) (scores0 : List Score) (tr : List PipeEvent)
      (out : List Score × List PipeEvent),
      refScoresLoop cfg atk d key detok losses l scores0 tr = .ok out →
      ∃ ns, out.1 = scores0 ++ ns
        ∧ l.mapM (fun p => do
            let lo : Score ←
              match losses[p.1]? with
              | none => Except.error "IndexError: loss"
              | some x => Except.ok x
            (Attack.attack atk.score atk.state p.2 none
              { detokenized_sample := none, loss := some lo,
                batch_size := none, substr_neighbors := none }).2) = .ok ns := by
  intro l
  induction l with
  | nil =>
    intro scores0 tr out h
    simp only [refScoresLoop, Except.ok.injEq] at h
    subst h
    exact ⟨[], by simp, rfl⟩
  | cons p rest ih =>
    intro scores0 tr out h
    simp only [refScoresLoop, hpre, Bool.false_eq_true, if_false] at h
    rw [exceptOkBind] at h
    split at h
    · rw [exceptErrBind] at h
      exact Except.noConfusion h
    · rename_i x hx
      rw [exceptOkBind] at h
      obtain ⟨sc, hsc, h⟩ := exceptBind_ok h
      obtain ⟨ns, hout, hmap⟩ := ih _ _ _ h
      have hfp : (fun (p : Nat × Py) => do
            let lo : Score ←
              match losses[p.1]? with
              | none => Except.error "IndexError: loss"
              | some x => Except.ok x
            (Attack.attack atk.score atk.state p.2 none
              { detokenized_sample := none, loss := some lo,
                batch_size := none, substr_neighbors := none }).2) p
          = .ok sc := by
        simp only [hx]
        rw [exceptOkBind]
        exact hsc
      refine ⟨sc :: ns, by rw [hout, List.append_assoc]; rfl, ?_⟩
      exact mapM_cons_ok _ _ _ _ _ hfp hmap

theorem refDocsLoop_spec (cfg : ExperimentConfig) (atk : PAttacker)
    (key : String) (hpre : cfg.pretokenized = false) :
    ∀ (l : List (Nat × SampleInfo)) (acc : List SampleInfo)
      (tr : List PipeEvent) (out : List SampleInfo × List PipeEvent),
      refDocsLoop cfg atk key l acc tr = .ok out →
      ∃ newPart, out.1 = acc ++ newPart
        ∧ List.Forall₂ (fun q r1 => ∃ scores,
            refScoresSpec atk q.2 = .ok scores
            ∧ r1 = q.2.extendKey key scores) l newPart := by
  intro l
  induction l with
  | nil =>
    intro acc tr out h
    simp only [refDocsLoop, Except.ok.injEq] at h
    subst h
    exact ⟨[], by simp, List.Forall₂.nil⟩
  | cons p rest ih =>
    intro acc tr out h
    simp only [refDocsLoop] at h
    obtain ⟨q, hq, h⟩ := exceptBind_ok h
    obtain ⟨scores, tr1⟩ := q
    obtain ⟨newPart, hout, hrel⟩ := ih _ _ _ h
    obtain ⟨ns, hns, hmap⟩ :=
      refScoresLoop_spec cfg atk p.1 key p.2.detokenized _ hpre _ _ _ _ hq
    have hscores : scores = ns := by
      rw [show ((scores, tr1) : List Score × List PipeEvent).1 = scores from rfl]
        at hns
      simpa using hns
    refine ⟨p.2.extendKey key scores :: newPart, ?_, ?_⟩
    · rw [hout, List.append_assoc]
      rfl
    · refine List.Forall₂.cons ⟨scores, ?_, rfl⟩ hrel
      rw [hscores, ← hmap]
      rfl

/-- C8: The reference pass.  (a) With no reference models configured, the
pass is skipped entirely: it returns the records unchanged with no events
and no error.  (b) On a successful run with reference models, the event
trace is exactly the primary-pass events followed by `refTraceSpec`: one
block per reference model whose key has an attacker — that model's
per-record, per-substring scoring events and then its unload — in
reference-model order, so every reference score event comes after all
primary-pass loss computations and each strategy is unloaded before the next
reference model's work starts.  (c) Every reference scoring event passes
`probs = None` (no token-probability recomputation).  (d) One reference
model's pass over the records extends each record under the reference key
with exactly the scores computed by the attack entrypoint from the record's
sample texts and its STORED per-substring losses, with `probs = None`. -/
theorem pipeline_reference_second_pass (data : MiaData)
    (attackers : List (String × PAttacker)) (tm : Model)
    (rms : Option (List (String × Model))) (cfg : ExperimentConfig)
    (ns : Option Nat) (bs : Nat) (out : MiaOutput)
    (h : get_mia_scores data attackers tm rms cfg ns bs = .ok out)
    (hpre : cfg.pretokenized = false) :
    (∀ results, refPass cfg attackers none results = .ok (results, []))
    ∧ (∀ rmsL, rms = some rmsL →
        ∃ t1, out.trace = t1 ++ refTraceSpec attackers rmsL
            (out.results.map (fun r => r.sample.elems.length))
          ∧ ∀ e ∈ t1, isPrimaryEv e = true)
    ∧ (∀ key d i pArg, PipeEvent.refEv key d i pArg ∈ out.trace → pArg = none)
    ∧ (∀ atk key l acc tr ro, refDocsLoop cfg atk key l acc tr = .ok ro →
        ∃ newPart, ro.1 = acc ++ newPart
          ∧ List.Forall₂ (fun q r1 => ∃ scores,
              refScoresSpec atk q.2 = .ok scores
              ∧ r1 = q.2.extendKey key scores) l newPart) := by
  obtain ⟨nbs, pq, rq, agg, h1, h2, h3, h4, h5⟩ :=
    get_mia_scores_ok_elim data attackers tm rms cfg ns bs out h
  have htrace : out.trace = pq.2 ++ rq.2 := by rw [h5]
  have hres : out.results = rq.1 := by rw [h5]
  have hprim : ∀ e ∈ pq.2, isPrimaryEv e = true :=
    batchLoop_events cfg cfg.neighborhood_config nbs attackers tm data.records
      bs _ _ _ _ h2 (fun e he => absurd he (List.not_mem_nil e))
  refine ⟨fun results => rfl, ?_, ?_, ?_⟩
  · intro rmsL hrms
    subst hrms
    have h3m : refModelsLoop cfg attackers rmsL pq.1 [] = .ok rq := h3
    have htr2 : rq.2 = [] ++ refTraceSpec attackers rmsL
        (pq.1.map (fun r => r.sample.elems.length)) :=
      refModelsLoop_trace cfg attackers rmsL _ _ _ h3m
    have hsam : rq.1.map SampleInfo.sample = pq.1.map SampleInfo.sample :=
      refModelsLoop_samples cfg attackers rmsL _ _ _ h3m
    have hlens : rq.1.map (fun r => r.sample.elems.length)
        = pq.1.map (fun r => r.sample.elems.length) := by
      have e1 : rq.1.map (fun r => r.sample.elems.length)
          = (rq.1.map SampleInfo.sample).map (fun s => s.elems.length) := by
        rw [List.map_map]
        rfl
      have e2 : pq.1.map (fun r => r.sample.elems.length)
          = (pq.1.map SampleInfo.sample).map (fun s => s.elems.length) := by
        rw [List.map_map]
        rfl
      rw [e1, e2, hsam]
    refine ⟨pq.2, ?_, hprim⟩
    rw [htrace, htr2, hres, hlens]
    rfl
  · intro key d i pArg hmem
    rw [htrace] at hmem
    rcases List.mem_append.mp hmem with hm | hm
    · exact Bool.noConfusion (hprim _ hm)
    · cases rms with
      | none =>
        have hrq : rq = (pq.1, []) := by
          have : refPass cfg attackers none pq.1 = .ok (pq.1, []) := rfl
          rw [this] at h3
          exact (Except.ok.injEq _ _).mp h3.symm
        rw [hrq] at hm
        exact absurd hm (List.not_mem_nil _)
      | some rmsL =>
        have h3m : refModelsLoop cfg attackers rmsL pq.1 [] = .ok rq := h3
        have htr2 := refModelsLoop_trace cfg attackers rmsL _ _ _ h3m
        rw [htr2] at hm
        simp only [List.nil_append] at hm
        exact refTraceSpec_refEv attackers rmsL _ key d i pArg hm
  · intro atk key l acc tr ro hro
    exact refDocsLoop_spec cfg atk key hpre l acc tr ro hro

/-- A reference-based attacker: echoes the stored loss when no token
probabilities are passed, 100 when they are (making the probs argument
observable in the score). -/
def testRefAtk : PAttacker :=
  { state := Attack.init testCfg (testModel 0 2) none none true,
    score := fun _ _ probs kw =>
      .ok (if probs.isSome then 100 else kw.loss.getD 0) }

/-- The output of the concrete reference-pass witness run. -/
def w8out : MiaOutput :=
  { predictions := [("loss", [2]), ("ref-refA", [2])],
    samples := [Py.list [Py.str "ab"]],
    results := [{ sample := Py.list [Py.str "ab"], detokenized := none,
                  scores := [("loss", [2]), ("ref-refA", [2])] }],
    trace := [.probsEv 0 0, .lossEv 0 0, .refEv "ref-refA" 0 0 none,
              .unloadEv "ref-refA"] }

/-- C8 witness: a concrete run with one reference model "org/refA" — the
reference score 2 echoes the stored loss and shows probs was None (a passed
probs would have produced 100), the skip-with-no-reference-models conjunct
is instantiated, and no reference event carrying probabilities occurs. -/
theorem pipeline_reference_second_pass_witness :
    get_mia_scores { records := [.str "ab"], neighbors := none }
      [("loss", testLossAtk), ("ref-refA", testRefAtk)] (testModel 0 2)
      (some [("org/refA", testModel 1 0)]) testCfg none 50 = .ok w8out
    ∧ refPass testCfg [("loss", testLossAtk), ("ref-refA", testRefAtk)] none []
        = .ok ([], [])
    ∧ PipeEvent.refEv "ref-refA" 0 0 (some []) ∉ w8out.trace := by
  have hrun : get_mia_scores { records := [.str "ab"], neighbors := none }
      [("loss", testLossAtk), ("ref-refA", testRefAtk)] (testModel 0 2)
      (some [("org/refA", testModel 1 0)]) testCfg none 50 = .ok w8out := rfl
  have ht := pipeline_reference_second_pass _ _ _ _ _ _ _ _ hrun rfl
  refine ⟨hrun, ht.1 [], fun hmem => ?_⟩
  exact Option.noConfusion (ht.2.2.1 _ _ _ _ hmem)

end Mimir
